import Mathlib

/-!
Verification of the quiz-solver service (app/quiz_solver.py, app/llm_client.py,
app/config.py, app/browser.py).  The development shallowly embeds the pure parts
of the code — the answer-extraction cascade, the submit-URL extractor, the
instruction extractor (including its base64 path), the tool-call dispatch of the
answer engine, and the quiz-chain orchestrator — and proves or refutes the
specification's claims about them.  External effects (the browser, the language
model, HTTP submission) are modelled as oracles consulted at explicit steps.
-/

/-! ## Basic character and string helpers (Python semantics, ASCII scope) -/

/-- ASCII whitespace, the characters recognised by Python's str.strip and by
the re module's whitespace class.  The embedding restricts text to the ASCII
range, so the extra Unicode whitespace characters Python would also accept are
out of scope. -/
def pyWs (c : Char) : Bool :=
  c = ' ' || c = '\t' || c = '\n' || c = '\r' || c = Char.ofNat 11 || c = Char.ofNat 12

/-- Python str.strip() on a character list: drop leading and trailing whitespace. -/
def pyStripL (l : List Char) : List Char :=
  ((l.dropWhile pyWs).reverse.dropWhile pyWs).reverse

/-- Python str.strip(). -/
def pyStrip (s : String) : String := String.mk (pyStripL s.data)

/-- Python substring test `pat in l`. -/
def subIn (pat : List Char) : List Char → Bool
  | [] => pat.isEmpty
  | a :: rest => pat.isPrefixOf (a :: rest) || subIn pat rest

/-- The trailing punctuation set stripped from extracted URLs by
`match.rstrip('.,;:!?)')` in QuizSolver._extract_submit_url. -/
def trailPunct (c : Char) : Bool :=
  c = '.' || c = ',' || c = ';' || c = ':' || c = '!' || c = '?' || c = ')'

/-- Python str.rstrip with the punctuation set above. -/
def rstripPunct (l : List Char) : List Char :=
  (l.reverse.dropWhile trailPunct).reverse

/-- Lower-casing of a character list (ASCII, matching Python str.lower on the
ASCII range handled here). -/
def lowerL (l : List Char) : List Char := l.map Char.toLower

/-- The opening brace character, written numerically. -/
def braceO : Char := Char.ofNat 123

/-- The closing brace character, written numerically. -/
def braceC : Char := Char.ofNat 125

/-- The double-quote character. -/
def dquote : Char := Char.ofNat 34

/-- The backslash character. -/
def bslash : Char := Char.ofNat 92

/-- Decimal digit test, as in the regex class \d (ASCII). -/
def isDigitCh (c : Char) : Bool := 48 ≤ c.toNat && c.toNat ≤ 57

/-- Value of a decimal digit character. -/
def digitVal (c : Char) : Nat := c.toNat - 48

/-- The decimal digit character for d (defined by cases so that its value and
digit-ness are immediate). -/
def digitChar (d : Nat) : Char :=
  if d = 0 then '0' else if d = 1 then '1' else if d = 2 then '2'
  else if d = 3 then '3' else if d = 4 then '4' else if d = 5 then '5'
  else if d = 6 then '6' else if d = 7 then '7' else if d = 8 then '8' else '9'

/-- Big-endian value of a run of decimal digit characters. -/
def decValue (ds : List Char) : Nat := ds.foldl (fun a c => 10 * a + digitVal c) 0

/-! ## Python/JSON values

The values the repository passes around: the answer type of
LLMClient._extract_answer (bool | int | float | str | dict) together with null
and arrays, which json.loads can produce.  Floats are modelled as exact
rationals; in this code they only ever arise from decimal literals, for which
the rational value is exact. -/

inductive PyVal where
  | null : PyVal
  | bool : Bool → PyVal
  | int : Int → PyVal
  | float : Rat → PyVal
  | str : String → PyVal
  | arrNil : PyVal
  | arrCons : PyVal → PyVal → PyVal
  | objNil : PyVal
  | objCons : String → PyVal → PyVal → PyVal
deriving DecidableEq

/-- Arrays and objects are encoded by their cons spines (arrNil/arrCons and
objNil/objCons) rather than by Lean lists: the encoding keeps PyVal a
non-nested inductive, so every function over it is structurally recursive and
evaluates by kernel reduction.  These helpers build a value from a list. -/
def listToArr (l : List PyVal) : PyVal := l.foldr PyVal.arrCons PyVal.arrNil

/-- Build an object value from a list of key/value pairs. -/
def listToObj (l : List (String × PyVal)) : PyVal :=
  l.foldr (fun kv t => PyVal.objCons kv.1 kv.2 t) PyVal.objNil

/-- Python truthiness of a value, as used by `if json_match:` and
`result.get(...)` checks in the source (empty dict/list/string, zero and None
are falsy). -/
def pyTruthy : PyVal → Bool
  | .null => false
  | .bool b => b
  | .int i => i != 0
  | .float q => q != 0
  | .str s => s != ""
  | .arrNil => false
  | .arrCons _ _ => true
  | .objNil => false
  | .objCons _ _ _ => true

/-! ## json.dumps (default options: ensure_ascii, separators ", " and ": ") -/

/-- Worker for decimal rendering: peel digits from the low end, prepending
them to the accumulator; the fuel (any bound with n < 10^fuel) keeps the
recursion structural so that it evaluates by kernel reduction. -/
def natDigitsGo : Nat → Nat → List Char → List Char
  | 0, _, acc => acc
  | fuel + 1, n, acc =>
    if n = 0 then acc else natDigitsGo fuel (n / 10) (digitChar (n % 10) :: acc)

/-- Decimal digit characters of a natural number, most significant first
(Python str on a non-negative int). -/
def natDigitChars (n : Nat) : List Char :=
  if n = 0 then ['0'] else natDigitsGo (n + 1) n []

/-- Decimal rendering of an integer (Python str(int)). -/
def intDecChars (i : Int) : List Char :=
  if i < 0 then '-' :: natDigitChars i.natAbs else natDigitChars i.natAbs

/-- Lower-case hexadecimal digit, used by the \uXXXX escapes of json.dumps. -/
def hexDigitChar (n : Nat) : Char :=
  if n < 10 then digitChar n
  else if n = 10 then 'a' else if n = 11 then 'b' else if n = 12 then 'c'
  else if n = 13 then 'd' else if n = 14 then 'e' else 'f'

/-- The \uXXXX escape for a code unit below 0x10000. -/
def uEscape (n : Nat) : List Char :=
  [bslash, 'u', hexDigitChar (n / 4096 % 16), hexDigitChar (n / 256 % 16),
   hexDigitChar (n / 16 % 16), hexDigitChar (n % 16)]

/-- json.dumps escaping of a single character under the default
ensure_ascii=True. -/
def dumpsChar (c : Char) : List Char :=
  if c = dquote then [bslash, dquote]
  else if c = bslash then [bslash, bslash]
  else if c = '\n' then [bslash, 'n']
  else if c = '\t' then [bslash, 't']
  else if c = '\r' then [bslash, 'r']
  else if c.toNat = 8 then [bslash, 'b']
  else if c.toNat = 12 then [bslash, 'f']
  else if c.toNat < 32 then uEscape c.toNat
  else if c.toNat < 127 then [c]
  else if c.toNat < 65536 then uEscape c.toNat
  else uEscape (55296 + (c.toNat - 65536) / 1024) ++ uEscape (56320 + (c.toNat - 65536) % 1024)

/-- json.dumps rendering of a string, including the surrounding quotes. -/
def dumpsStrChars (s : String) : List Char :=
  dquote :: (s.data.map dumpsChar).flatten ++ [dquote]

/-- Decimal rendering of a rational whose denominator divides a power of ten.
Floats in this embedding only arise from decimal literals, for which Python's
repr reproduces the literal's short decimal form modelled here (integral
floats print with a trailing ".0", as in Python).  Rationals outside that
family render as num/den; they cannot arise from the modelled code paths. -/
def ratDecChars (q : Rat) : List Char :=
  match (List.range 41).find? (fun k => 10 ^ k % q.den = 0) with
  | some k =>
    if k = 0 then
      intDecChars q.num ++ ['.', '0']
    else
      let m := q.num.natAbs * (10 ^ k / q.den)
      let ds := natDigitChars m
      let ds := if ds.length ≤ k then List.replicate (k + 1 - ds.length) '0' ++ ds else ds
      let ip := ds.take (ds.length - k)
      let fp := ds.drop (ds.length - k)
      (if q.num < 0 then ['-'] else []) ++ ip ++ '.' :: fp
  | none => intDecChars q.num ++ '/' :: natDigitChars q.den

/-- json.dumps with the default separators (", " between items, ": " between a
key and its value).  The Bool flag distinguishes rendering a complete value
(false) from rendering the tail of an array/object spine (true), where each
further element is preceded by ", " and the closing bracket is emitted at the
nil; the tail mode is only ever reached on spine constructors. -/
def dumpB : Bool → PyVal → List Char
  | false, .null => ['n', 'u', 'l', 'l']
  | false, .bool true => ['t', 'r', 'u', 'e']
  | false, .bool false => ['f', 'a', 'l', 's', 'e']
  | false, .int i => intDecChars i
  | false, .float q => ratDecChars q
  | false, .str s => dumpsStrChars s
  | false, .arrNil => ['[', ']']
  | false, .arrCons h t => '[' :: dumpB false h ++ dumpB true t
  | false, .objNil => [braceO, braceC]
  | false, .objCons k v t => braceO :: dumpsStrChars k ++ ':' :: ' ' :: dumpB false v ++ dumpB true t
  | true, .arrNil => [']']
  | true, .arrCons h t => ',' :: ' ' :: dumpB false h ++ dumpB true t
  | true, .objNil => [braceC]
  | true, .objCons k v t => ',' :: ' ' :: dumpsStrChars k ++ ':' :: ' ' :: dumpB false v ++ dumpB true t
  | true, _ => []

/-- json.dumps on one value. -/
def dumpVal (v : PyVal) : List Char := dumpB false v

/-- json.dumps. -/
def jsonDumps (v : PyVal) : String := String.mk (dumpVal v)

/-! ## json.loads

A recursive-descent parser for the JSON grammar accepted by Python's json
module: objects, arrays, strings with the standard escapes (including \uXXXX
and surrogate pairs; lone surrogates are out of the embedding's scope since
Lean characters are scalar values), numbers (integer if they have neither a
fraction nor an exponent, float otherwise), true/false/null.  Whitespace is
space, tab, newline, carriage return.  Duplicate object keys follow dict
semantics: the later value replaces the earlier one in place. -/

/-- JSON whitespace. -/
def jsonWs (c : Char) : Bool := c = ' ' || c = '\t' || c = '\n' || c = '\r'

/-- Skip JSON whitespace. -/
def skipWs (l : List Char) : List Char := l.dropWhile jsonWs

/-- Value of a hexadecimal digit character, if it is one. -/
def hexVal (c : Char) : Option Nat :=
  if isDigitCh c then some (digitVal c)
  else if 97 ≤ c.toNat && c.toNat ≤ 102 then some (c.toNat - 87)
  else if 65 ≤ c.toNat && c.toNat ≤ 70 then some (c.toNat - 55)
  else none

/-- Read the body of a JSON string after its opening quote, handling escapes;
returns the decoded characters and the rest of the input past the closing
quote.  Literal control characters are rejected (json's default strict mode). -/
def readStrGo : Nat → List Char → List Char → Option (List Char × List Char)
  | 0, _, _ => none
  | _ + 1, [], _ => none
  | fuel + 1, c :: rest, acc =>
    if c = dquote then some (acc.reverse, rest)
    else if c = bslash then
      match rest with
      | [] => none
      | e :: rest2 =>
        if e = dquote then readStrGo fuel rest2 (dquote :: acc)
        else if e = bslash then readStrGo fuel rest2 (bslash :: acc)
        else if e = '/' then readStrGo fuel rest2 ('/' :: acc)
        else if e = 'b' then readStrGo fuel rest2 (Char.ofNat 8 :: acc)
        else if e = 'f' then readStrGo fuel rest2 (Char.ofNat 12 :: acc)
        else if e = 'n' then readStrGo fuel rest2 ('\n' :: acc)
        else if e = 'r' then readStrGo fuel rest2 ('\r' :: acc)
        else if e = 't' then readStrGo fuel rest2 ('\t' :: acc)
        else if e = 'u' then
          match rest2 with
          | h1 :: h2 :: h3 :: h4 :: rest3 =>
            match hexVal h1, hexVal h2, hexVal h3, hexVal h4 with
            | some a, some b, some cc, some d =>
              let n := 4096 * a + 256 * b + 16 * cc + d
              if 55296 ≤ n && n ≤ 56319 then
                match rest3 with
                | e2 :: u2 :: g1 :: g2 :: g3 :: g4 :: rest4 =>
                  if e2 = bslash && u2 = 'u' then
                    match hexVal g1, hexVal g2, hexVal g3, hexVal g4 with
                    | some a2, some b2, some c2, some d2 =>
                      let m := 4096 * a2 + 256 * b2 + 16 * c2 + d2
                      if 56320 ≤ m && m ≤ 57343 then
                        readStrGo fuel rest4
                          (Char.ofNat (65536 + (n - 55296) * 1024 + (m - 56320)) :: acc)
                      else none
                    | _, _, _, _ => none
                  else none
                | _ => none
              else if 56320 ≤ n && n ≤ 57343 then none
              else readStrGo fuel rest3 (Char.ofNat n :: acc)
            | _, _, _, _ => none
          | _ => none
        else none
    else if c.toNat < 32 then none
    else readStrGo fuel rest (c :: acc)

/-- Negation as applied to a parsed numeric value. -/
def pyNegate : PyVal → PyVal
  | .int n => .int (-n)
  | .float q => .float (-q)
  | v => v

/-- Read the magnitude of a JSON number (everything after an optional leading
minus): integer when there is neither a fraction nor an exponent, float
otherwise; leading zeros are rejected as in the json module. -/
def readNumCore (l1 : List Char) : Option (PyVal × List Char) :=
  let ds := l1.takeWhile isDigitCh
  let r1 := l1.dropWhile isDigitCh
  if ds.isEmpty then none
  else if ds.headD '0' = '0' && ds.length != 1 then none
  else
    let (fds, r2) : List Char × List Char :=
      match r1 with
      | c :: rest =>
        if c = '.' then (rest.takeWhile isDigitCh, rest.dropWhile isDigitCh) else ([], r1)
      | [] => ([], r1)
    let hasFrac := match r1 with
      | c :: _ => c = '.'
      | [] => false
    if hasFrac && fds.isEmpty then none
    else
      let (hasExp, eAbs, eNeg, r3) : Bool × Nat × Bool × List Char :=
        match r2 with
        | c :: rest =>
          if c = 'e' || c = 'E' then
            let (en, rest2) : Bool × List Char :=
              match rest with
              | s :: rest2 =>
                if s = '+' then (false, rest2) else if s = '-' then (true, rest2) else (false, rest)
              | [] => (false, rest)
            let eds := rest2.takeWhile isDigitCh
            (true, decValue eds, en, rest2.dropWhile isDigitCh)
          else (false, 0, false, r2)
        | [] => (false, 0, false, r2)
      let badExp := match r2 with
        | c :: rest =>
          if c = 'e' || c = 'E' then
            (match rest with
             | s :: rest2 =>
               if s = '+' || s = '-' then rest2.takeWhile isDigitCh else rest.takeWhile isDigitCh
             | [] => []).isEmpty
          else false
        | [] => false
      if badExp then none
      else if !hasFrac && !hasExp then some (.int (Int.ofNat (decValue ds)), r2)
      else
        let mant : Nat := decValue (ds ++ fds)
        let ex : Int := Int.ofNat eAbs * (if eNeg then -1 else 1) - Int.ofNat fds.length
        let mag : Rat :=
          if 0 ≤ ex then (mant : Rat) * (10 : Rat) ^ ex.toNat
          else (mant : Rat) / (10 : Rat) ^ (-ex).toNat
        some (.float mag, r3)

/-- Read a JSON number starting at the head of the input (the caller has seen
a minus sign or a digit there). -/
def readNum (l : List Char) : Option (PyVal × List Char) :=
  match l with
  | c :: rest =>
    if c = '-' then (readNumCore rest).map (fun p => (pyNegate p.1, p.2)) else readNumCore (c :: rest)
  | [] => none

/-- Insert a key/value pair as Python dict assignment does: replace the value
at the first occurrence of the key, else append. -/
def objInsert (k : String) (v : PyVal) : List (String × PyVal) → List (String × PyVal)
  | [] => [(k, v)]
  | (k0, v0) :: rest => if k0 = k then (k0, v) :: rest else (k0, v0) :: objInsert k v rest

/-- Check a literal tail such as "rue" for true. -/
def expectLit : List Char → List Char → Option (List Char)
  | [], l => some l
  | p :: ps, c :: rest => if c = p then expectLit ps rest else none
  | _ :: _, [] => none

/-- The mode of the recursive-descent JSON reader: a value, an object body
right after its opening brace, a further object entry (with the entries read
so far), an array body right after its opening bracket, or a further array
item.  A single fuelled function over this mode keeps the recursion structural
on the fuel so that it evaluates by kernel reduction. -/
inductive PMode where
  | pv : PMode
  | pobjStart : PMode
  | pobjEntry : List (String × PyVal) → PMode
  | parrStart : PMode
  | parrItem : List PyVal → PMode

/-- Fuelled JSON reader.  Every recursive call follows the consumption of at
least one input character, so fuel = input length + 2 always suffices. -/
def parseF : Nat → PMode → List Char → Option (PyVal × List Char)
  | 0, _, _ => none
  | fuel + 1, .pv, l =>
    match skipWs l with
    | [] => none
    | c :: rest =>
      if c = dquote then
        match readStrGo (rest.length + 1) rest [] with
        | some (cs, r) => some (.str (String.mk cs), r)
        | none => none
      else if c = braceO then parseF fuel .pobjStart rest
      else if c = '[' then parseF fuel .parrStart rest
      else if c = 't' then (expectLit ['r', 'u', 'e'] rest).map (fun r => (.bool true, r))
      else if c = 'f' then (expectLit ['a', 'l', 's', 'e'] rest).map (fun r => (.bool false, r))
      else if c = 'n' then (expectLit ['u', 'l', 'l'] rest).map (fun r => (.null, r))
      else if c = '-' || isDigitCh c then readNum (c :: rest)
      else none
  | fuel + 1, .pobjStart, l =>
    match skipWs l with
    | [] => none
    | c :: rest =>
      if c = braceC then some (.objNil, rest)
      else parseF fuel (.pobjEntry []) (c :: rest)
  | fuel + 1, .pobjEntry acc, l =>
    match l with
    | [] => none
    | c :: rest =>
      if c = dquote then
        match readStrGo (rest.length + 1) rest [] with
        | some (kcs, r1) =>
          match skipWs r1 with
          | ':' :: r2 =>
            match parseF fuel .pv r2 with
            | some (v, r3) =>
              let acc := objInsert (String.mk kcs) v acc
              match skipWs r3 with
              | ',' :: r4 =>
                match skipWs r4 with
                | [] => none
                | d :: r5 => parseF fuel (.pobjEntry acc) (d :: r5)
              | d :: r4 => if d = braceC then some (listToObj acc, r4) else none
              | [] => none
            | none => none
          | _ => none
        | none => none
      else none
  | fuel + 1, .parrStart, l =>
    match skipWs l with
    | [] => none
    | c :: rest =>
      if c = ']' then some (.arrNil, rest)
      else parseF fuel (.parrItem []) (c :: rest)
  | fuel + 1, .parrItem acc, l =>
    match parseF fuel .pv l with
    | some (v, r1) =>
      match skipWs r1 with
      | ',' :: r2 => parseF fuel (.parrItem (acc ++ [v])) r2
      | ']' :: r2 => some (listToArr (acc ++ [v]), r2)
      | _ => none
    | none => none

/-- json.loads: parse a complete JSON document; trailing whitespace is allowed,
trailing data is an error. -/
def jsonLoads (s : String) : Option PyVal :=
  match parseF (3 * s.data.length + 4) .pv s.data with
  | some (v, rest) => if (skipWs rest).isEmpty then some v else none
  | none => none

example : jsonLoads "true" = some (.bool true) := rfl
example : jsonLoads "True" = none := rfl
example : jsonLoads "42" = some (.int 42) := rfl
example : jsonLoads "\x7b\"x\": 1\x7d" = some (.objCons "x" (.int 1) .objNil) := rfl
example : jsonLoads "\x7b\"a\": \"\x7d" = none := rfl
example : jsonLoads "The answer is true" = none := rfl
example : jsonLoads "[1, \"a\"]" = some (.arrCons (.int 1) (.arrCons (.str "a") .arrNil)) := rfl
example : jsonDumps (.objCons "a" (.objCons "b" (.int 1) .objNil) (.objCons "c" (.int 2) .objNil))
    = "\x7b\"a\": \x7b\"b\": 1\x7d, \"c\": 2\x7d" := by decide

/-! ## LLMClient._extract_answer (app/llm_client.py lines 346-388)

The cascade turning the model's final free-text response into a typed answer:
(1) find all matches of the brace regex and parse the last one as JSON,
keeping it only if truthy; (2) otherwise parse the whole stripped text as
JSON; (3) otherwise the boolean keywords; (4) otherwise the first numeric
literal; (5) otherwise the stripped text itself. -/

/-- Character admitted by the bracket class of the brace-scan regex
(anything but a brace). -/
def nonBrace (c : Char) : Bool := c != braceO && c != braceC

/-- Match the remainder of the brace regex after its opening brace: a run of
non-braces, then any number of (inner brace pair followed by non-braces),
then the closing brace.  The alternatives are mutually exclusive on the next
character, so the regex engine's backtracking never changes the outcome.
Returns the matched characters (including the final brace) and the rest.
Fuel bounded by the input length keeps the recursion structural. -/
def braceTail : Nat → List Char → Option (List Char × List Char)
  | 0, _ => none
  | fuel + 1, l =>
    let a := l.takeWhile nonBrace
    let r := l.dropWhile nonBrace
    match r with
    | [] => none
    | c :: r1 =>
      if c = braceC then some (a ++ [braceC], r1)
      else
        let b := r1.takeWhile nonBrace
        let r2 := r1.dropWhile nonBrace
        match r2 with
        | [] => none
        | d :: r3 =>
          if d = braceC then
            match braceTail fuel r3 with
            | some (t, rest) => some (a ++ braceO :: b ++ braceC :: t, rest)
            | none => none
          else none

/-- Match the brace regex at the current position: an opening brace followed
by braceTail. -/
def matchBraceAt : List Char → Option (List Char × List Char)
  | [] => none
  | c :: rest =>
    if c = braceO then
      match braceTail (rest.length + 1) rest with
      | some (m, after) => some (braceO :: m, after)
      | none => none
    else none

/-- re.findall: leftmost non-overlapping matches of a one-position matcher,
which returns the captured text and the input past the whole match.  Every
matcher used here consumes at least one character on success, so fuel equal
to the input length suffices. -/
def findAllGo (step : List Char → Option (List Char × List Char)) :
    Nat → List Char → List (List Char)
  | 0, _ => []
  | _ + 1, [] => []
  | fuel + 1, c :: rest =>
    match step (c :: rest) with
    | some (cap, after) => cap :: findAllGo step fuel after
    | none => findAllGo step fuel rest

/-- re.findall over a whole input. -/
def findAllM (step : List Char → Option (List Char × List Char)) (l : List Char) :
    List (List Char) :=
  findAllGo step l.length l

/-- Match the numeric-literal regex (optional minus, digits, optional point
and further digits) at the current position. -/
def numTokenAt (l : List Char) : Option (List Char) :=
  let (sign, l1) : List Char × List Char :=
    match l with
    | c :: rest => if c = '-' then (['-'], rest) else ([], l)
    | [] => ([], l)
  let ds := l1.takeWhile isDigitCh
  if ds.isEmpty then none
  else
    match l1.dropWhile isDigitCh with
    | c :: rest =>
      if c = '.' then some (sign ++ ds ++ '.' :: rest.takeWhile isDigitCh)
      else some (sign ++ ds)
    | [] => some (sign ++ ds)

/-- The first match of the numeric-literal regex in the text (the source uses
findall and keeps only numbers[0], which is the leftmost match). -/
def firstNum : List Char → Option (List Char)
  | [] => none
  | c :: rest =>
    match numTokenAt (c :: rest) with
    | some t => some t
    | none => firstNum rest

/-- Python int() on a token matched by the numeric regex without a point. -/
def tokInt (tok : List Char) : Int :=
  match tok with
  | c :: rest => if c = '-' then -(Int.ofNat (decValue rest)) else Int.ofNat (decValue tok)
  | [] => 0

/-- Python float() on a token matched by the numeric regex with a point
(exact, since such tokens are finite decimals). -/
def tokFloat (tok : List Char) : Rat :=
  let (neg, t) : Bool × List Char :=
    match tok with
    | c :: rest => if c = '-' then (true, rest) else (false, tok)
    | [] => (false, tok)
  let ip := t.takeWhile (fun c => c != '.')
  let fp := (t.dropWhile (fun c => c != '.')).drop 1
  let mag : Rat := (decValue (ip ++ fp) : Rat) / (10 : Rat) ^ fp.length
  if neg then -mag else mag

/-- Stage 4's typing rule: float when the token contains a point, else int.
The int()/float() ValueError fallback in the source cannot fire on tokens
this regex matches, so it is not modelled. -/
def numFromTok (tok : List Char) : PyVal :=
  if tok.contains '.' then .float (tokFloat tok) else .int (tokInt tok)

/-- Stages 2-5 of _extract_answer, which operate on the stripped text (the
source reassigns answer_text = answer_text.strip() before stage 2). -/
def extractAnswerTail (answer_text : String) : PyVal :=
  let t := pyStrip answer_text
  match jsonLoads t with
  | some v => v
  | none =>
    let tl := lowerL t.data
    if tl = ['t', 'r', 'u', 'e'] || tl = ['f', 'a', 'l', 's', 'e'] then
      .bool (tl = ['t', 'r', 'u', 'e'])
    else
      match firstNum t.data with
      | some tok => numFromTok tok
      | none => .str t

/-- LLMClient._extract_answer.  Stage 1 scans the raw text for brace-regex
matches, parses the last one, and keeps it only when truthy (a parse failure
inside the try block leaves json_match unset). -/
def extract_answer (answer_text : String) : PyVal :=
  match (findAllM matchBraceAt answer_text.data).getLast? with
  | some m =>
    match jsonLoads (String.mk m) with
    | some v => if pyTruthy v then v else extractAnswerTail answer_text
    | none => extractAnswerTail answer_text
  | none => extractAnswerTail answer_text

/-- The object-scan machinery of stage 1 in isolation: the last brace-regex
match of the text, parsed as JSON. -/
def scanObjectPath (s : String) : Option PyVal :=
  match (findAllM matchBraceAt s.data).getLast? with
  | some m => jsonLoads (String.mk m)
  | none => none

/-- Textual brace-profile check: braces balance and never nest more than one
level inside the outer pair, the shape the object-scan regex supports. -/
def depthLe2Go : List Char → Nat → Bool
  | [], d => d == 0
  | c :: rest, d =>
    if c = braceO then decide (d < 2) && depthLe2Go rest (d + 1)
    else if c = braceC then decide (0 < d) && depthLe2Go rest (d - 1)
    else depthLe2Go rest d

/-- Whole-text brace profile: balanced, nesting depth at most one level inside
the outer braces. -/
def textDepthLe1 (s : String) : Bool := depthLe2Go s.data 0

example : extract_answer "The answer is true" = .str "The answer is true" := rfl
example : extract_answer "True" = .bool true := rfl
example : extract_answer "true" = .bool true := rfl
example : extract_answer "Result: 42" = .int 42 := rfl
example : extract_answer "hello world" = .str "hello world" := rfl
example : extract_answer "\x7b\"x\": 1\x7d" = .objCons "x" (.int 1) .objNil := rfl
example : extract_answer " -7 things" = .int (-7) := rfl
example : scanObjectPath "\x7b\"a\": \"\x7d\x7b\"\x7d" = none := rfl
example : textDepthLe1 "\x7b\"a\": \"\x7d\x7b\"\x7d" = true := rfl

/-! ## Submit-URL extraction (QuizSolver._extract_submit_url, lines 235-266)

The five regex patterns are modelled by deterministic matchers.  Each is
faithful to the Python regex semantics on its pattern: the lazy gap .*? takes
the shortest expansion (and cannot cross a newline, since DOTALL is not set),
\s+ and the bracket classes are greedy runs, and alternations are committed
exactly as the backtracking engine would. -/

/-- Case-insensitive match of a literal (ASCII case folding, as re.IGNORECASE
behaves on the ASCII texts in scope); returns the rest of the input. -/
def dropLitCI : List Char → List Char → Option (List Char)
  | [], l => some l
  | p :: ps, c :: rest => if c.toLower = p.toLower then dropLitCI ps rest else none
  | _ :: _, [] => none

/-- The bracket class of the URL patterns: anything but whitespace and the
characters < > " ' ). -/
def urlChar (c : Char) : Bool :=
  !pyWs c && c != '<' && c != '>' && c != dquote && c != Char.ofNat 39 && c != ')'

/-- Match https?:// followed by at least one URL-class character (the greedy
run).  The optional s is committed only when :// follows, as the backtracking
engine would.  Returns the matched source text and the rest. -/
def matchUrl (l : List Char) : Option (List Char × List Char) :=
  match dropLitCI ['h', 't', 't', 'p'] l with
  | none => none
  | some r1 =>
    let core : List Char → Nat → Option (List Char × List Char) := fun r n =>
      match dropLitCI [':', '/', '/'] r with
      | none => none
      | some r2 =>
        let run := r2.takeWhile urlChar
        if run.isEmpty then none
        else some (l.take (n + 3) ++ run, r2.dropWhile urlChar)
    match r1 with
    | c :: rest =>
      if c.toLower = 's' then
        match core rest 5 with
        | some res => some res
        | none => core r1 4
      else core r1 4
    | [] => none

/-- Match to\s+(URL): the literal "to", at least one whitespace character,
then a URL. -/
def matchToUrl (l : List Char) : Option (List Char × List Char) :=
  match dropLitCI ['t', 'o'] l with
  | none => none
  | some r1 =>
    if (r1.takeWhile pyWs).isEmpty then none
    else matchUrl (r1.dropWhile pyWs)

/-- The lazy gap .*? of the patterns: try the continuation at the current
position first, else advance one character — but never across a newline,
since the patterns are compiled without DOTALL. -/
def lazyGap (f : List Char → Option (List Char × List Char)) :
    List Char → Option (List Char × List Char)
  | [] => f []
  | c :: rest =>
    match f (c :: rest) with
    | some res => some res
    | none => if c = '\n' then none else lazyGap f rest

/-- Pattern 1: Post.*?to\s+(URL). -/
def stepP1 (l : List Char) : Option (List Char × List Char) :=
  match dropLitCI ['p', 'o', 's', 't'] l with
  | none => none
  | some r => lazyGap matchToUrl r

/-- Pattern 2: submit.*?to\s+(URL). -/
def stepP2 (l : List Char) : Option (List Char × List Char) :=
  match dropLitCI ['s', 'u', 'b', 'm', 'i', 't'] l with
  | none => none
  | some r => lazyGap matchToUrl r

/-- Pattern 3: Post.*?your.*?answer.*?to\s+(URL).  Nested lazy gaps reproduce
the engine's backtracking order (earlier gaps as short as possible first). -/
def stepP3 (l : List Char) : Option (List Char × List Char) :=
  match dropLitCI ['p', 'o', 's', 't'] l with
  | none => none
  | some r =>
    lazyGap (fun l1 =>
      match dropLitCI ['y', 'o', 'u', 'r'] l1 with
      | none => none
      | some r1 =>
        lazyGap (fun l2 =>
          match dropLitCI ['a', 'n', 's', 'w', 'e', 'r'] l2 with
          | none => none
          | some r2 => lazyGap matchToUrl r2) r1) r

/-- Pattern 4: a URL whose characters contain "submit" (case-insensitive).
The two greedy bracket runs around "submit" always extend to the same maximal
URL-character run, so a match exists exactly when that run contains "submit",
and the capture is the whole scheme-plus-run either way. -/
def stepP4 (l : List Char) : Option (List Char × List Char) :=
  match matchUrl l with
  | some (cap, after) =>
    if subIn ['s', 'u', 'b', 'm', 'i', 't'] (lowerL cap) then some (cap, after) else none
  | none => none

/-- Pattern 5: any URL (this pattern has no capture group, so findall yields
the whole match). -/
def stepP5 (l : List Char) : Option (List Char × List Char) := matchUrl l

/-- The selection loop of _extract_submit_url over the matches of one
pattern: return the first match whose punctuation-stripped form contains
"submit" (case-insensitively); otherwise strip the first match. -/
def pickUrl (ms : List (List Char)) : List Char :=
  match ms.find? (fun m => subIn ['s', 'u', 'b', 'm', 'i', 't'] (lowerL (rstripPunct m))) with
  | some m => rstripPunct m
  | none => rstripPunct (ms.headD [])

/-- The pattern cascade of _extract_submit_url: stop at the first pattern
with any match and select among its matches. -/
def suGo : List (List Char → Option (List Char × List Char)) → List Char → Option String
  | [], _ => none
  | p :: ps, l =>
    match findAllM p l with
    | [] => suGo ps l
    | m :: ms => some (String.mk (pickUrl (m :: ms)))

/-- QuizSolver._extract_submit_url: try the five URL patterns in order
(post-to, submit-to, post-your-answer-to, URL containing "submit", any URL),
stopping at the first with matches; prefer a match containing "submit", else
the first; strip trailing punctuation. -/
def extract_submit_url (instructions : String) : Option String :=
  suGo [stepP1, stepP2, stepP3, stepP4, stepP5] instructions.data

example : extract_submit_url "Post your answer to https://quiz.example.com/submit." =
    some "https://quiz.example.com/submit" := rfl
example : extract_submit_url "no web address here" = none := rfl
example : extract_submit_url "Post to https://a.com/x. Post to https://b.com/sub." =
    some "https://a.com/x" := rfl
example : extract_submit_url "Post to https://a.com/x. Post to https://b.com/submit." =
    some "https://b.com/submit" := rfl
example : extract_submit_url "Visit https://a.com/page for info" =
    some "https://a.com/page" := rfl
example : extract_submit_url "Send it to https://api.example.com/submit please" =
    some "https://api.example.com/submit" := rfl

/-- C1: the claim states that extractAnswer("The answer is true") yields the
boolean true; on the code it does not — the boolean branch requires the whole
stripped text to equal "true"/"false", and no earlier stage fires, so the
string branch returns the text verbatim. -/
theorem C1_counterexample : extract_answer "The answer is true" ≠ PyVal.bool true := by
  decide

/-- C1 (amended): extractAnswer("The answer is true") returns the string
"The answer is true"; the boolean branch fires only when the entire stripped
text case-insensitively equals "true" or "false", as in
extractAnswer("True") = true.  (For the exact lower-case text "true" the
whole-text JSON stage already returns the boolean.) -/
theorem C1_extract_answer_boolean_branch :
    extract_answer "The answer is true" = PyVal.str "The answer is true" ∧
    extract_answer "True" = PyVal.bool true ∧
    extract_answer "true" = PyVal.bool true :=
  ⟨rfl, rfl, rfl⟩

/-- C6: for every instruction text on which the post-to pattern (the first
pattern of the cascade) has matches, the extractor answers from exactly those
matches: a match containing "submit" (case-insensitively, after stripping) is
preferred over positional order, otherwise the first match is taken, and the
chosen URL is returned with trailing punctuation .,;:!?) stripped — in
particular the result is the punctuation-stripped form of one of the captured
URLs. -/
theorem C6_extract_submit_url_post_to :
    ∀ instructions : String,
      findAllM stepP1 instructions.data ≠ [] →
      extract_submit_url instructions
          = some (String.mk (pickUrl (findAllM stepP1 instructions.data))) ∧
        ∃ m ∈ findAllM stepP1 instructions.data,
          pickUrl (findAllM stepP1 instructions.data) = rstripPunct m := by
  intro instr h
  cases hm : findAllM stepP1 instr.data with
  | nil => exact absurd hm h
  | cons m ms =>
    refine ⟨?_, ?_⟩
    · show suGo [stepP1, stepP2, stepP3, stepP4, stepP5] instr.data = _
      unfold suGo
      rw [hm]
    · unfold pickUrl
      cases hf : (m :: ms).find?
          (fun x => subIn ['s', 'u', 'b', 'm', 'i', 't'] (lowerL (rstripPunct x))) with
      | none => exact ⟨m, List.mem_cons_self m ms, rfl⟩
      | some m2 => exact ⟨m2, List.mem_of_find?_eq_some hf, rfl⟩

/-- Witness for C6: a concrete instruction text with a post-to phrase; the
extractor returns the URL with its trailing period stripped. -/
theorem C6_witness :
    extract_submit_url "Post your answer to https://quiz.example.com/submit."
        = some (String.mk (pickUrl (findAllM stepP1
            "Post your answer to https://quiz.example.com/submit.".data))) ∧
      ∃ m ∈ findAllM stepP1 "Post your answer to https://quiz.example.com/submit.".data,
        pickUrl (findAllM stepP1 "Post your answer to https://quiz.example.com/submit.".data)
          = rstripPunct m :=
  C6_extract_submit_url_post_to "Post your answer to https://quiz.example.com/submit."
    (by decide)

/-- C8: the answer-extraction cascade is total on non-empty text — it always
produces a value (the embedding returns a PyVal outright, mirroring the
source's unconditional final return), and when every earlier stage declines
(no truthy object-scan result, no whole-text JSON, no boolean keyword, no
numeric literal) the value is the stripped text itself as a string. -/
theorem C8_extract_answer_total :
    ∀ s : String, s ≠ "" →
      (∃ v : PyVal, extract_answer s = v) ∧
      (scanObjectPath s = none →
       jsonLoads (pyStrip s) = none →
       lowerL (pyStrip s).data ≠ ['t', 'r', 'u', 'e'] →
       lowerL (pyStrip s).data ≠ ['f', 'a', 'l', 's', 'e'] →
       firstNum (pyStrip s).data = none →
       extract_answer s = .str (pyStrip s)) := by
  intro s _
  refine ⟨⟨extract_answer s, rfl⟩, ?_⟩
  intro h2 h1 h3 h4 h5
  have htail : extractAnswerTail s = .str (pyStrip s) := by
    simp only [extractAnswerTail, h1]
    rw [if_neg (by simp [h3, h4])]
    simp only [h5]
  cases hL : (findAllM matchBraceAt s.data).getLast? with
  | none =>
    simp only [extract_answer, hL]
    exact htail
  | some m =>
    have hj : jsonLoads (String.mk m) = none := by
      have h2c := h2
      simp only [scanObjectPath, hL] at h2c
      exact h2c
    simp only [extract_answer, hL, hj]
    exact htail

/-- Witness for C8 at the concrete text "hello world". -/
theorem C8_witness :
    (∃ v : PyVal, extract_answer "hello world" = v) ∧
      (scanObjectPath "hello world" = none →
       jsonLoads (pyStrip "hello world") = none →
       lowerL (pyStrip "hello world").data ≠ ['t', 'r', 'u', 'e'] →
       lowerL (pyStrip "hello world").data ≠ ['f', 'a', 'l', 's', 'e'] →
       firstNum (pyStrip "hello world").data = none →
       extract_answer "hello world" = .str (pyStrip "hello world")) :=
  C8_extract_answer_total "hello world" (by decide)

/-! ## Answer-engine tool dispatch (LLMClient.solve_quiz, lines 292-329) -/

/-- A tool call requested by the model: correlation id, function name, and
the JSON-encoded argument string exactly as received. -/
structure ToolCall where
  id : String
  name : String
  rawArgs : String

/-- Outcome of awaiting a tool handler: a structured result, or an exception
carrying its message (str(e)).  The handler behaviour is external and enters
the model as an oracle. -/
inductive ToolOutcome where
  | ok : PyVal → ToolOutcome
  | raises : String → ToolOutcome

/-- A role:"tool" message appended to the conversation, with the serialized
content string. -/
structure ToolMsg where
  tool_call_id : String
  name : String
  content : String
deriving DecidableEq

/-- The fixed domain of LLMClient._get_function_map. -/
def knownTools : List String :=
  ["scrape_url", "download_file", "process_pdf", "process_csv", "process_image",
   "analyze_dataframe", "calculate_statistics", "create_chart"]

/-- json.dumps({"error": msg}), the payload shape fed back on failures. -/
def errContent (msg : String) : String :=
  jsonDumps (PyVal.objCons "error" (PyVal.str msg) PyVal.objNil)

/-- The tool-dispatch loop of one round of LLMClient.solve_quiz.  For each
requested call the argument string is json.loads-ed outside the try block, so
a parse failure propagates out of the loop (modelled as Except.error, which
the engine's outer handler turns into an absent answer).  Otherwise dispatch
by name: a known handler's exception is caught and appended as the
{"error": message} payload, and an unknown name is appended as
{"error": "Unknown function: <name>"}; either way the loop continues. -/
def runToolCalls (h : String → PyVal → ToolOutcome) :
    List ToolCall → List ToolMsg → Except String (List ToolMsg)
  | [], msgs => .ok msgs
  | c :: cs, msgs =>
    match jsonLoads c.rawArgs with
    | none => .error c.rawArgs
    | some args =>
      if c.name ∈ knownTools then
        match h c.name args with
        | .ok r => runToolCalls h cs (msgs ++ [⟨c.id, c.name, jsonDumps r⟩])
        | .raises m => runToolCalls h cs (msgs ++ [⟨c.id, c.name, errContent m⟩])
      else
        runToolCalls h cs (msgs ++ [⟨c.id, c.name, errContent ("Unknown function: " ++ c.name)⟩])

example : errContent "boom" = "\x7b\"error\": \"boom\"\x7d" := rfl

/-- C3: the claim that dispatch never aborts a round fails on the code — the
argument string is parsed outside the try block, so a tool call whose
arguments are not valid JSON raises out of the dispatch loop, aborting the
round (and the engine, whose outer handler returns an absent answer).
Concretely, one call to the known tool scrape_url with arguments "not json". -/
theorem C3_counterexample :
    runToolCalls (fun _ _ => .ok .null) [⟨"call_1", "scrape_url", "not json"⟩] []
      = .error "not json" := rfl

/-- C3 (amended): for every round whose tool calls all carry JSON-parseable
argument strings, dispatch never aborts the round: the loop returns ok with
exactly one message appended per call; a known handler that raises appends
the structured {"error": message} payload, and an unknown tool name appends
{"error": "Unknown function: <name>"}; dispatch then proceeds with the
remaining calls and the engine with the next round. -/
theorem C3_tool_dispatch_never_aborts :
    (∀ (h : String → PyVal → ToolOutcome) (calls : List ToolCall) (msgs : List ToolMsg),
      (∀ c ∈ calls, (jsonLoads c.rawArgs).isSome = true) →
      ∃ out, runToolCalls h calls msgs = .ok out ∧
        out.length = msgs.length + calls.length) ∧
    (∀ (h : String → PyVal → ToolOutcome) (c : ToolCall) (cs : List ToolCall)
        (msgs : List ToolMsg) (args : PyVal) (m : String),
      jsonLoads c.rawArgs = some args → c.name ∈ knownTools → h c.name args = .raises m →
      runToolCalls h (c :: cs) msgs
        = runToolCalls h cs (msgs ++ [⟨c.id, c.name, errContent m⟩])) ∧
    (∀ (h : String → PyVal → ToolOutcome) (c : ToolCall) (cs : List ToolCall)
        (msgs : List ToolMsg) (args : PyVal),
      jsonLoads c.rawArgs = some args → c.name ∉ knownTools →
      runToolCalls h (c :: cs) msgs
        = runToolCalls h cs
            (msgs ++ [⟨c.id, c.name, errContent ("Unknown function: " ++ c.name)⟩])) := by
  refine ⟨?_, ?_, ?_⟩
  · intro h calls
    induction calls with
    | nil => exact fun msgs _ => ⟨msgs, rfl, by simp⟩
    | cons c cs ih =>
      intro msgs hall
      have hc := hall c (List.mem_cons_self c cs)
      have hrest : ∀ x ∈ cs, (jsonLoads x.rawArgs).isSome = true := fun x hx =>
        hall x (List.mem_cons_of_mem c hx)
      cases hj : jsonLoads c.rawArgs with
      | none => rw [hj] at hc; simp at hc
      | some args =>
        by_cases hk : c.name ∈ knownTools
        · cases hr : h c.name args with
          | ok r =>
            obtain ⟨out, ho, hl⟩ := ih (msgs ++ [⟨c.id, c.name, jsonDumps r⟩]) hrest
            refine ⟨out, ?_, ?_⟩
            · simp only [runToolCalls, hj, if_pos hk, hr]
              exact ho
            · simp only [List.length_append, List.length_cons, List.length_nil] at hl ⊢
              omega
          | raises m =>
            obtain ⟨out, ho, hl⟩ := ih (msgs ++ [⟨c.id, c.name, errContent m⟩]) hrest
            refine ⟨out, ?_, ?_⟩
            · simp only [runToolCalls, hj, if_pos hk, hr]
              exact ho
            · simp only [List.length_append, List.length_cons, List.length_nil] at hl ⊢
              omega
        · obtain ⟨out, ho, hl⟩ :=
            ih (msgs ++ [⟨c.id, c.name, errContent ("Unknown function: " ++ c.name)⟩]) hrest
          refine ⟨out, ?_, ?_⟩
          · simp only [runToolCalls, hj, if_neg hk]
            exact ho
          · simp only [List.length_append, List.length_cons, List.length_nil] at hl ⊢
            omega
  · intro h c cs msgs args m hj hk hr
    simp only [runToolCalls, hj, if_pos hk, hr]
  · intro h c cs msgs args hj hk
    simp only [runToolCalls, hj, if_neg hk]

/-- Witness for C3 (amended): a known tool whose handler raises "boom" on
empty JSON arguments appends exactly the error payload and continues. -/
theorem C3_witness :
    runToolCalls (fun _ _ => .raises "boom") [⟨"call_1", "scrape_url", "\x7b\x7d"⟩] []
      = runToolCalls (fun _ _ => .raises "boom") []
          ([] ++ [⟨"call_1", "scrape_url", errContent "boom"⟩]) :=
  C3_tool_dispatch_never_aborts.2.1 (fun _ _ => .raises "boom")
    ⟨"call_1", "scrape_url", "\x7b\x7d"⟩ [] [] PyVal.objNil "boom" rfl (by decide) rfl

/-! ## Instruction extraction (QuizSolver._extract_quiz_instructions, lines 183-233)

The extractor runs on the parsed page; the embedding works on the page's
relevant projections (result-div inner markup, script contents, raw markup)
and models html.parser + get_text by a tag-stripping scan, faithful for the
markup fragments in scope (no comments, CDATA sections or entity references). -/

/-- Value of a standard base64 alphabet character. -/
def b64Val (c : Char) : Option Nat :=
  if 65 ≤ c.toNat && c.toNat ≤ 90 then some (c.toNat - 65)
  else if 97 ≤ c.toNat && c.toNat ≤ 122 then some (c.toNat - 97 + 26)
  else if isDigitCh c then some (c.toNat - 48 + 52)
  else if c = '+' then some 62
  else if c = '/' then some 63
  else none

/-- Decode a run of 4-character base64 blocks; '=' padding is allowed only at
the very end (one or two characters). -/
def b64Blocks : List Char → Option (List Nat)
  | [] => some []
  | a :: b :: c :: d :: rest =>
    match b64Val a, b64Val b with
    | some va, some vb =>
      if c = '=' then
        if d = '=' && rest.isEmpty then some [(va * 4 + vb / 16)] else none
      else
        match b64Val c with
        | some vc =>
          if d = '=' then
            if rest.isEmpty then some [(va * 4 + vb / 16), (vb % 16 * 16 + vc / 4)] else none
          else
            match b64Val d with
            | some vd =>
              match b64Blocks rest with
              | some bs =>
                some ((va * 4 + vb / 16) :: (vb % 16 * 16 + vc / 4) :: (vc % 4 * 64 + vd) :: bs)
              | none => none
            | none => none
        | none => none
    | _, _ => none
  | _ => none

/-- Python base64.b64decode with the default validate=False: characters
outside the alphabet (other than '=') are discarded, then the kept length
must be a multiple of four with '=' only as final padding. -/
def b64decode (l : List Char) : Option (List Nat) :=
  let kept := l.filter (fun c => (b64Val c).isSome || c = '=')
  if kept.length % 4 = 0 then b64Blocks kept else none

/-- UTF-8 continuation byte check. -/
def utf8Cont (b : Nat) : Bool := 128 ≤ b && b ≤ 191

/-- Strict UTF-8 decoding (bytes.decode("utf-8")): rejects overlong
encodings, surrogates and values beyond U+10FFFF.  Fuelled by the byte
count. -/
def utf8Dec : Nat → List Nat → Option (List Char)
  | 0, _ => none
  | _ + 1, [] => some []
  | fuel + 1, b :: rest =>
    if b ≤ 127 then (utf8Dec fuel rest).map (fun cs => Char.ofNat b :: cs)
    else if 194 ≤ b && b ≤ 223 then
      match rest with
      | b2 :: rest2 =>
        if utf8Cont b2 then
          (utf8Dec fuel rest2).map (fun cs => Char.ofNat ((b - 192) * 64 + (b2 - 128)) :: cs)
        else none
      | _ => none
    else if 224 ≤ b && b ≤ 239 then
      match rest with
      | b2 :: b3 :: rest2 =>
        if (if b = 224 then 160 else 128) ≤ b2 && b2 ≤ (if b = 237 then 159 else 191)
            && utf8Cont b3 then
          (utf8Dec fuel rest2).map
            (fun cs => Char.ofNat ((b - 224) * 4096 + (b2 - 128) * 64 + (b3 - 128)) :: cs)
        else none
      | _ => none
    else if 240 ≤ b && b ≤ 244 then
      match rest with
      | b2 :: b3 :: b4 :: rest2 =>
        if (if b = 240 then 144 else 128) ≤ b2 && b2 ≤ (if b = 244 then 143 else 191)
            && utf8Cont b3 && utf8Cont b4 then
          (utf8Dec fuel rest2).map (fun cs =>
            Char.ofNat ((b - 240) * 262144 + (b2 - 128) * 4096 + (b3 - 128) * 64 + (b4 - 128))
              :: cs)
        else none
      | _ => none
    else none

/-- bytes.decode("utf-8"). -/
def utf8Decode (bs : List Nat) : Option String := (utf8Dec (bs.length + 1) bs).map String.mk

/-- Split an HTML fragment into its raw text pieces by removing markup tags
(everything from < to the matching >). -/
def htmlSplitGo : Nat → List Char → List Char → List (List Char)
  | 0, _, acc => [acc.reverse]
  | _ + 1, [], acc => [acc.reverse]
  | fuel + 1, c :: rest, acc =>
    if c = '<' then
      acc.reverse :: htmlSplitGo fuel ((rest.dropWhile (fun d => d != '>')).drop 1) []
    else htmlSplitGo fuel rest (c :: acc)

/-- BeautifulSoup get_text with strip=True: the stripped non-empty text
pieces of the fragment, in document order. -/
def htmlFrags (s : String) : List String :=
  (htmlSplitGo (s.data.length + 1) s.data []).filterMap
    (fun f => let t := pyStripL f; if t.isEmpty then none else some (String.mk t))

/-- Join text pieces with the "\n" separator of get_text. -/
def joinNl (frags : List String) : String :=
  String.mk (List.intercalate ['\n'] (frags.map String.data))

/-- get_text(separator="\n", strip=True) of a fragment. -/
def htmlVisibleText (s : String) : String := joinNl (htmlFrags s)

/-- The backtick character. -/
def backtick : Char := Char.ofNat 96

/-- The single-quote character. -/
def squote : Char := Char.ofNat 39

/-- The quote class ["'] of the atob patterns. -/
def isQuoteCh (c : Char) : Bool := c = dquote || c = squote

/-- re.search for the template-literal pattern atob\(`([^`]+)`\): leftmost
occurrence of atob(` whose backtick-free payload (necessarily ending at the
next backtick) is followed by `).  The payload class cannot cross a backtick,
so the engine's matching is deterministic. -/
def findAtob1 : List Char → Option (List Char)
  | [] => none
  | c :: rest =>
    if ['a', 't', 'o', 'b', '(', backtick].isPrefixOf (c :: rest) then
      let r := (c :: rest).drop 6
      let p := r.takeWhile (fun d => d != backtick)
      match r.dropWhile (fun d => d != backtick) with
      | _ :: cp :: _ =>
        if !p.isEmpty && cp = ')' then some p else findAtob1 rest
      | _ => findAtob1 rest
    else findAtob1 rest

/-- re.search for atob\(["\']([^"\']+)["\']\): the payload sits between quote
characters (not necessarily matching ones) and is followed by ). -/
def findAtob2 : List Char → Option (List Char)
  | [] => none
  | c :: rest =>
    if ['a', 't', 'o', 'b', '('].isPrefixOf (c :: rest) then
      match (c :: rest).drop 5 with
      | q1 :: r1 =>
        if isQuoteCh q1 then
          let p := r1.takeWhile (fun d => !isQuoteCh d)
          match r1.dropWhile (fun d => !isQuoteCh d) with
          | _ :: cp :: _ => if !p.isEmpty && cp = ')' then some p else findAtob2 rest
          | _ => findAtob2 rest
        else findAtob2 rest
      | [] => findAtob2 rest
    else findAtob2 rest

/-- re.search for atob\(\s*["\']([^"\']+)["\']\s*\), the whitespace-tolerant
variant. -/
def findAtob3 : List Char → Option (List Char)
  | [] => none
  | c :: rest =>
    if ['a', 't', 'o', 'b', '('].isPrefixOf (c :: rest) then
      match ((c :: rest).drop 5).dropWhile pyWs with
      | q1 :: r1 =>
        if isQuoteCh q1 then
          let p := r1.takeWhile (fun d => !isQuoteCh d)
          match r1.dropWhile (fun d => !isQuoteCh d) with
          | _ :: r2 =>
            if !p.isEmpty then
              match r2.dropWhile pyWs with
              | cp :: _ => if cp = ')' then some p else findAtob3 rest
              | [] => findAtob3 rest
            else findAtob3 rest
          | _ => findAtob3 rest
        else findAtob3 rest
      | [] => findAtob3 rest
    else findAtob3 rest

/-- The payload clean-up of _extract_quiz_instructions: strip, then remove
every newline and space character. -/
def cleanPayload (p : List Char) : List Char :=
  (pyStripL p).filter (fun c => c != '\n' && c != ' ')

/-- The try block applied to a matched payload: clean, base64-decode, decode
as UTF-8, parse the decoded HTML and take its visible text; any failure
falls through to the next pattern. -/
def decodeAtobPayload (p : List Char) : Option String :=
  match b64decode (cleanPayload p) with
  | some bytes =>
    match utf8Decode bytes with
    | some sTxt => some (htmlVisibleText sTxt)
    | none => none
  | none => none

/-- The per-script body of the scan loop: only scripts whose text contains
"atob" are examined; the three quoting patterns are tried in order, and a
pattern whose match fails to decode falls through to the next pattern. -/
def scanOneScript (s : String) : Option String :=
  if subIn ['a', 't', 'o', 'b'] s.data then
    match (findAtob1 s.data).bind decodeAtobPayload with
    | some t => some t
    | none =>
      match (findAtob2 s.data).bind decodeAtobPayload with
      | some t => some t
      | none => (findAtob3 s.data).bind decodeAtobPayload
  else none

/-- The script loop of _extract_quiz_instructions: first script whose scan
yields text. -/
def scanScripts : List String → Option String
  | [] => none
  | s :: rest =>
    match scanOneScript s with
    | some t => some t
    | none => scanScripts rest

/-- The projections of a parsed quiz page used by
QuizSolver._extract_quiz_instructions: the inner markup of the div#result
element when that element is present, the string contents of the script tags
in document order, and the raw page markup for the last-resort full-page
text. -/
structure PageDoc where
  resultDivInner : Option String
  scripts : List String
  wholeHtml : String

/-- Steps 2-4 of the extractor: the base64 script scan, then the result
div's plain text, then the whole page's text. -/
def scriptsOrFallback (p : PageDoc) : Option String :=
  match scanScripts p.scripts with
  | some t => some t
  | none =>
    match p.resultDivInner with
    | some inner => some (joinNl (htmlFrags inner))
    | none => some (htmlVisibleText p.wholeHtml)

/-- QuizSolver._extract_quiz_instructions: rendered result-div content when
it has visible text, then the base64 script scan, then the result div's
plain text, finally the whole page's text.  (The source's general exception
handler is unreachable in this pure model.) -/
def extract_quiz_instructions (p : PageDoc) : Option String :=
  match p.resultDivInner with
  | some inner =>
    if !(htmlFrags inner).isEmpty then
      if inner != "" then some (joinNl (htmlFrags inner))
      else scriptsOrFallback p
    else scriptsOrFallback p
  | none => scriptsOrFallback p

example : htmlVisibleText "<b>Hi</b>" = "Hi" := rfl
example : b64decode "PGI+SGk8L2I+".data
    = some [60, 98, 62, 72, 105, 60, 47, 98, 62] := rfl
example : scanOneScript "const h = atob(`PGI+SGk8L2I+`); go(h);" = some "Hi" := rfl
example : findAtob2 "x = atob(\"QQ==\");".data = some ['Q', 'Q', '=', '='] := rfl
example : extract_quiz_instructions
    ⟨some "<p>Solve this.</p><p>Post to https://a.com/x</p>", [], ""⟩
    = some "Solve this.\nPost to https://a.com/x" := rfl

/-- The script loop skips a prefix of scripts that scan to nothing. -/
theorem scanScripts_append_of_none :
    ∀ (pre rest : List String), (∀ s ∈ pre, scanOneScript s = none) →
      scanScripts (pre ++ rest) = scanScripts rest := by
  intro pre
  induction pre with
  | nil => exact fun rest _ => rfl
  | cons a l ih =>
    intro rest h
    have ha := h a (List.mem_cons_self a l)
    show scanScripts (a :: (l ++ rest)) = _
    simp only [scanScripts, ha]
    exact ih rest (fun x hx => h x (List.mem_cons_of_mem a hx))

/-- C9: for every page whose result container yields no visible text, whose
leading scripts scan to nothing, and which then contains a script with a
template-literal atob call over a payload that base64- and UTF-8-decodes to
an HTML fragment, the instruction extractor returns the decoded fragment's
visible text. -/
theorem C9_extract_instructions_base64 :
    ∀ (p : PageDoc) (pre post : List String) (s : String) (payload : List Char)
      (bytes : List Nat) (d : String),
      (∀ inner, p.resultDivInner = some inner → htmlFrags inner = []) →
      p.scripts = pre ++ s :: post →
      (∀ s2 ∈ pre, scanOneScript s2 = none) →
      subIn ['a', 't', 'o', 'b'] s.data = true →
      findAtob1 s.data = some payload →
      b64decode (cleanPayload payload) = some bytes →
      utf8Decode bytes = some d →
      extract_quiz_instructions p = some (htmlVisibleText d) := by
  intro p pre post s payload bytes d hdiv hs hpre hsub hfind hb64 hutf
  have hone : scanOneScript s = some (htmlVisibleText d) := by
    simp only [scanOneScript, hsub, if_true, hfind, Option.some_bind, decodeAtobPayload,
      hb64, hutf]
  have hscan : scanScripts p.scripts = some (htmlVisibleText d) := by
    rw [hs, scanScripts_append_of_none pre (s :: post) hpre]
    simp only [scanScripts, hone]
  have hfall : scriptsOrFallback p = some (htmlVisibleText d) := by
    simp only [scriptsOrFallback, hscan]
  cases hdv : p.resultDivInner with
  | none => simp only [extract_quiz_instructions, hdv, hfall]
  | some inner =>
    have hfr : htmlFrags inner = [] := hdiv inner hdv
    simp only [extract_quiz_instructions, hdv, hfr, List.isEmpty_nil, Bool.not_true,
      Bool.false_eq_true, if_false, hfall]

/-- Witness for C9: a page with an empty result container and one obfuscated
script whose payload decodes to the fragment "<b>Hi</b>". -/
theorem C9_witness :
    extract_quiz_instructions
      ⟨some "  ", ["const h = atob(`PGI+SGk8L2I+`); document.body.innerHTML = h;"], "<html></html>"⟩
      = some (htmlVisibleText "<b>Hi</b>") :=
  C9_extract_instructions_base64
    ⟨some "  ", ["const h = atob(`PGI+SGk8L2I+`); document.body.innerHTML = h;"], "<html></html>"⟩
    [] [] "const h = atob(`PGI+SGk8L2I+`); document.body.innerHTML = h;"
    "PGI+SGk8L2I+".data [60, 98, 62, 72, 105, 60, 47, 98, 62] "<b>Hi</b>"
    (by intro inner hi; cases hi; rfl)
    rfl (by intro s2 hs2; cases hs2) rfl rfl rfl rfl

/-! ## Quiz-chain orchestrator (QuizSolver.solve_quiz and
_solve_single_quiz_with_retry, lines 26-169; config.QUIZ_TIMEOUT = 180)

The orchestrator is interpreted against an environment of oracles for its
blocking operations (browser render, answer engine, HTTP submission) and an
elapsed-wall-clock function, all indexed by a global step counter that
advances with every emitted event.  The interpreter emits the run's event
trace, so temporal claims become statements about traces. -/

/-- config.QUIZ_TIMEOUT: the 180-second chain deadline. -/
def QUIZ_TIMEOUT : Nat := 180

/-- A submission verdict, per the response contract {correct, url, reason}
(a missing correct field is falsy, hence false here). -/
structure Verdict where
  correct : Bool
  url : Option String
  reason : Option String
deriving DecidableEq

/-- Python truthiness of result.get("url"): present and non-empty. -/
def urlTruthy : Option String → Bool
  | none => false
  | some s => s != ""

/-- Events of an orchestration run.  Deadline checks record the elapsed
seconds they observed. -/
inductive OEvent where
  | checkOuter : Nat → OEvent
  | checkAttempt : Nat → OEvent
  | render : String → OEvent
  | llmCall : OEvent
  | submitCall : String → OEvent
  | advance : String → OEvent
  | stopTimeout : OEvent
  | stopPageFail : OEvent
  | stopComplete : OEvent
  | stopWrongNoUrl : OEvent
  | stopExn : OEvent
deriving DecidableEq

/-- The environment of one orchestration run: the elapsed wall clock at each
step, and the outcomes of the blocking operations, indexed by the step at
which they run.  A render of none models an exception escaping the browser
call; an llm of none models an absent answer; a submit of none models a
failed or locally rejected submission. -/
structure OrcEnv where
  time : Nat → Nat
  render : Nat → Option PageDoc
  llm : Nat → Option PyVal
  submit : Nat → Option Verdict

/-- The attempt loop of _solve_single_quiz_with_retry (for attempt in
range(max_retries)): re-check the deadline before each attempt, ask the
answer engine (an absent answer consumes the attempt), submit (a failed
submission consumes the attempt), and accept a verdict that is correct or
carries a next URL; a wrong verdict without a next URL consumes the attempt.
Returns the accepted verdict if any, the next step counter, and the emitted
events. -/
def retryAttempts (env : OrcEnv) (submitUrl : String) :
    Nat → Nat → Option Verdict × Nat × List (Nat × OEvent)
  | 0, k => (none, k, [])
  | n + 1, k =>
    let t := env.time k
    if t > QUIZ_TIMEOUT then (none, k + 1, [(k, .checkAttempt t)])
    else
      match env.llm (k + 1) with
      | none =>
        let r := retryAttempts env submitUrl n (k + 2)
        (r.1, r.2.1, (k, .checkAttempt t) :: (k + 1, .llmCall) :: r.2.2)
      | some _ =>
        match env.submit (k + 2) with
        | none =>
          let r := retryAttempts env submitUrl n (k + 3)
          (r.1, r.2.1,
           (k, .checkAttempt t) :: (k + 1, .llmCall) :: (k + 2, .submitCall submitUrl) :: r.2.2)
        | some v =>
          if v.correct then
            (some v, k + 3,
             [(k, .checkAttempt t), (k + 1, .llmCall), (k + 2, .submitCall submitUrl)])
          else if urlTruthy v.url then
            (some v, k + 3,
             [(k, .checkAttempt t), (k + 1, .llmCall), (k + 2, .submitCall submitUrl)])
          else
            let r := retryAttempts env submitUrl n (k + 3)
            (r.1, r.2.1,
             (k, .checkAttempt t) :: (k + 1, .llmCall) :: (k + 2, .submitCall submitUrl) :: r.2.2)

/-- Result of one _solve_single_quiz_with_retry call: an exception escaped
the render (raised), or a result — the accepted verdict, or none for a page
failure, a timeout during retry, or exhausted retries. -/
inductive RetryOut where
  | raised : RetryOut
  | done : Option Verdict → RetryOut
deriving DecidableEq

/-- _solve_single_quiz_with_retry: render the page once, extract the
instructions and the submit URL (with this file's extractors), then run up
to max_retries = 3 attempts.  Falsy (empty) instructions or submit URL stop
the page, as `if not ...` does. -/
def retrySingle (env : OrcEnv) (url : String) (k : Nat) :
    RetryOut × Nat × List (Nat × OEvent) :=
  match env.render k with
  | none => (.raised, k + 1, [(k, .render url)])
  | some page =>
    match extract_quiz_instructions page with
    | none => (.done none, k + 1, [(k, .render url)])
    | some instructions =>
      if instructions = "" then (.done none, k + 1, [(k, .render url)])
      else
        match extract_submit_url instructions with
        | none => (.done none, k + 1, [(k, .render url)])
        | some submitUrl =>
          if submitUrl = "" then (.done none, k + 1, [(k, .render url)])
          else
            let r := retryAttempts env submitUrl 3 (k + 1)
            (.done r.1, r.2.1, (k, .render url) :: r.2.2)

/-- The chain-continuation decision of solve_quiz's loop body. -/
inductive VStep where
  | advance : String → VStep
  | complete : VStep
  | wrongStop : VStep
deriving DecidableEq

/-- The verdict handling of solve_quiz (lines 58-78): correct with a next URL
advances; correct without one completes the chain; wrong with a next URL
advances (the wrong answer is not re-attempted); wrong without one stops. -/
def verdictStep (v : Verdict) : VStep :=
  if v.correct then
    if urlTruthy v.url then .advance (v.url.getD "") else .complete
  else
    if urlTruthy v.url then .advance (v.url.getD "") else .wrongStop

/-- QuizSolver.solve_quiz: the chain loop as a fuelled interpreter emitting
the run's event trace (fuel only truncates the trace of an unboundedly long
chain; the theorems below hold for every fuel).  current_url is falsy when
empty. -/
def solveLoop (env : OrcEnv) : Nat → String → Nat → List (Nat × OEvent)
  | 0, _, _ => []
  | fuel + 1, currentUrl, k =>
    if currentUrl = "" then []
    else
      let t := env.time k
      if t > QUIZ_TIMEOUT then [(k, .checkOuter t), (k + 1, .stopTimeout)]
      else
        match retrySingle env currentUrl (k + 1) with
        | (.raised, k2, evs) => (k, .checkOuter t) :: evs ++ [(k2, .stopExn)]
        | (.done none, k2, evs) => (k, .checkOuter t) :: evs ++ [(k2, .stopPageFail)]
        | (.done (some v), k2, evs) =>
          match verdictStep v with
          | .advance u =>
            (k, .checkOuter t) :: evs ++ (k2, .advance u) :: solveLoop env fuel u (k2 + 1)
          | .complete => (k, .checkOuter t) :: evs ++ [(k2, .stopComplete)]
          | .wrongStop => (k, .checkOuter t) :: evs ++ [(k2, .stopWrongNoUrl)]

/-- Submission events. -/
def isSubmitEv : OEvent → Bool
  | .submitCall _ => true
  | _ => false

/-- Answer-engine events. -/
def isLlmEv : OEvent → Bool
  | .llmCall => true
  | _ => false

/-- Each attempt-loop call performs at most n submissions and at most n
answer generations for an n-attempt budget. -/
theorem retryAttempts_counts :
    ∀ (env : OrcEnv) (su : String) (n k : Nat),
      (retryAttempts env su n k).2.2.countP (fun p => isSubmitEv p.2) ≤ n ∧
      (retryAttempts env su n k).2.2.countP (fun p => isLlmEv p.2) ≤ n := by
  intro env su n
  induction n with
  | zero => intro k; simp [retryAttempts]
  | succ m ih =>
    intro k
    simp only [retryAttempts]
    split
    · constructor <;> simp [isSubmitEv, isLlmEv]
    · split
      · obtain ⟨h1, h2⟩ := ih (k + 2)
        constructor <;> simp [List.countP_cons, isSubmitEv, isLlmEv] at h1 h2 ⊢ <;> omega
      · split
        · obtain ⟨h1, h2⟩ := ih (k + 3)
          constructor <;> simp [List.countP_cons, isSubmitEv, isLlmEv] at h1 h2 ⊢ <;> omega
        · split
          · constructor <;> simp [List.countP_cons, isSubmitEv, isLlmEv]
          · split
            · constructor <;> simp [List.countP_cons, isSubmitEv, isLlmEv]
            · obtain ⟨h1, h2⟩ := ih (k + 3)
              constructor <;> simp [List.countP_cons, isSubmitEv, isLlmEv] at h1 h2 ⊢ <;> omega

/-- C4: within one page's solve-with-retry routine (as the orchestrator
invokes it, max_retries = 3) at most 3 submissions — and at most 3 answer
generations — are ever performed before giving up on the page. -/
theorem C4_at_most_three_attempts :
    ∀ (env : OrcEnv) (url : String) (k : Nat),
      (retrySingle env url k).2.2.countP (fun p => isSubmitEv p.2) ≤ 3 ∧
      (retrySingle env url k).2.2.countP (fun p => isLlmEv p.2) ≤ 3 := by
  intro env url k
  simp only [retrySingle]
  split
  · constructor <;> simp [isSubmitEv, isLlmEv]
  · split
    · constructor <;> simp [isSubmitEv, isLlmEv]
    · split
      · constructor <;> simp [isSubmitEv, isLlmEv]
      · split
        · constructor <;> simp [isSubmitEv, isLlmEv]
        · split
          · constructor <;> simp [isSubmitEv, isLlmEv]
          · rename_i su heq hne
            obtain ⟨h1, h2⟩ := retryAttempts_counts env su 3 (k + 1)
            constructor <;> simp [List.countP_cons, isSubmitEv, isLlmEv] at h1 h2 ⊢ <;> omega

/-- C5: a submission verdict with correct = false that carries a non-empty
next URL exits the retry loop immediately with exactly that verdict — the
attempt emits one deadline check, one answer generation and one submission,
independently of the remaining attempt budget — and the orchestrator's
verdict handling then advances currentUrl to that URL. -/
theorem C5_wrong_with_url_accepted :
    (∀ (env : OrcEnv) (su : String) (n k : Nat) (a : PyVal) (v : Verdict),
      env.time k ≤ QUIZ_TIMEOUT → env.llm (k + 1) = some a →
      env.submit (k + 2) = some v → v.correct = false → urlTruthy v.url = true →
      retryAttempts env su (n + 1) k
        = (some v, k + 3,
           [(k, .checkAttempt (env.time k)), (k + 1, .llmCall), (k + 2, .submitCall su)])) ∧
    (∀ (v : Verdict) (u : String), v.correct = false → v.url = some u → u ≠ "" →
      verdictStep v = .advance u) := by
  constructor
  · intro env su n k a v ht hllm hsub hc hurl
    simp only [retryAttempts, Nat.not_lt.mpr ht, if_false, hllm, hsub, hc, hurl,
      Bool.false_eq_true, if_true]
  · intro v u hc hu hne
    have hturl : urlTruthy (some u) = true := by simp [urlTruthy, hne]
    simp [verdictStep, hc, hu, hturl]

/-- The environment used to witness C5 and C10: the clock never advances, the
engine always answers, and every submission comes back wrong but redirected. -/
def envC5 : OrcEnv :=
  ⟨fun _ => 0, fun _ => none, fun _ => some (.int 1),
   fun _ => some ⟨false, some "https://e.com/next", none⟩⟩

/-- Witness for C5: with envC5 the first attempt's wrong-but-redirected
verdict is returned at once, and the orchestrator advances to its URL. -/
theorem C5_witness :
    retryAttempts envC5 "https://e.com/submit" 3 0
        = (some ⟨false, some "https://e.com/next", none⟩, 3,
           [(0, .checkAttempt 0), (1, .llmCall), (2, .submitCall "https://e.com/submit")]) ∧
      verdictStep ⟨false, some "https://e.com/next", none⟩ = .advance "https://e.com/next" :=
  ⟨C5_wrong_with_url_accepted.1 envC5 "https://e.com/submit" 2 0 (.int 1)
      ⟨false, some "https://e.com/next", none⟩ (by decide) rfl rfl rfl rfl,
   C5_wrong_with_url_accepted.2 ⟨false, some "https://e.com/next", none⟩ "https://e.com/next"
      rfl rfl (by decide)⟩

/-- Any verdict the attempt loop returns is correct or carries a next URL. -/
theorem retryAttempts_some_invariant :
    ∀ (env : OrcEnv) (su : String) (n k : Nat) (v : Verdict),
      (retryAttempts env su n k).1 = some v →
      v.correct = true ∨ urlTruthy v.url = true := by
  intro env su n
  induction n with
  | zero => intro k v h; simp [retryAttempts] at h
  | succ m ih =>
    intro k v h
    simp only [retryAttempts] at h
    split at h
    · simp at h
    · split at h
      · exact ih (k + 2) v h
      · split at h
        · exact ih (k + 3) v h
        · split at h
          · rename_i hc
            simp only [Option.some.injEq] at h
            subst h
            exact Or.inl hc
          · split at h
            · rename_i hurl
              simp only [Option.some.injEq] at h
              subst h
              exact Or.inr hurl
            · exact ih (k + 3) v h

/-- No event of the run ever records the orchestrator's
wrong-answer-without-next-URL stop. -/
def noBadStop (evs : List (Nat × OEvent)) : Bool :=
  evs.all (fun p => p.2 != OEvent.stopWrongNoUrl)

/-- The attempt loop emits only checks, engine calls and submissions —
never a wrong-stop marker. -/
theorem retryAttempts_noBadStop :
    ∀ (env : OrcEnv) (su : String) (n k : Nat),
      noBadStop (retryAttempts env su n k).2.2 = true := by
  intro env su n
  induction n with
  | zero => intro k; rfl
  | succ m ih =>
    intro k
    simp only [retryAttempts]
    split
    · rfl
    · split
      · simpa [noBadStop] using ih (k + 2)
      · split
        · simpa [noBadStop] using ih (k + 3)
        · split
          · rfl
          · split
            · rfl
            · simpa [noBadStop] using ih (k + 3)

/-- The per-page routine emits no wrong-stop marker either. -/
theorem retrySingle_noBadStop :
    ∀ (env : OrcEnv) (url : String) (k : Nat),
      noBadStop (retrySingle env url k).2.2 = true := by
  intro env url k
  simp only [retrySingle]
  split
  · rfl
  · split
    · rfl
    · split
      · rfl
      · split
        · rfl
        · split
          · rfl
          · rename_i su heq hne
            simpa [noBadStop] using retryAttempts_noBadStop env su 3 (k + 1)

/-- A verdict the per-page routine hands to the outer loop satisfies the
invariant. -/
theorem retrySingle_done_some :
    ∀ (env : OrcEnv) (url : String) (k : Nat) (v : Verdict),
      (retrySingle env url k).1 = .done (some v) →
      v.correct = true ∨ urlTruthy v.url = true := by
  intro env url k v h
  simp only [retrySingle] at h
  split at h
  · simp at h
  · split at h
    · simp at h
    · split at h
      · simp at h
      · split at h
        · simp at h
        · split at h
          · simp at h
          · simp only [RetryOut.done.injEq] at h
            exact retryAttempts_some_invariant env _ 3 (k + 1) v h

/-- A verdict satisfying the invariant never takes the wrong-stop branch. -/
theorem verdictStep_ne_wrongStop (v : Verdict)
    (h : v.correct = true ∨ urlTruthy v.url = true) : verdictStep v ≠ .wrongStop := by
  unfold verdictStep
  rcases h with hc | hu
  · rw [if_pos hc]
    split <;> simp
  · cases hcv : v.correct <;> simp [hcv, hu]

/-- C10: every verdict the per-page solve-with-retry routine returns is
correct or carries a next URL, and consequently the outer loop's
wrong-answer-without-next-URL branch is unreachable — no run trace of the
orchestrator contains a stopWrongNoUrl event (a wrong answer without a
redirect surfaces to the outer loop as an absent result instead). -/
theorem C10_wrong_no_url_unreachable :
    (∀ (env : OrcEnv) (su : String) (n k : Nat) (v : Verdict),
      (retryAttempts env su n k).1 = some v →
      v.correct = true ∨ urlTruthy v.url = true) ∧
    (∀ (env : OrcEnv) (fuel : Nat) (url : String) (k : Nat),
      noBadStop (solveLoop env fuel url k) = true) := by
  constructor
  · exact retryAttempts_some_invariant
  · intro env fuel
    induction fuel with
    | zero => intro url k; rfl
    | succ m ih =>
      intro url k
      simp only [solveLoop]
      split
      · rfl
      · split
        · rfl
        · split
          · rename_i k2 evs hrs
            have hevs : noBadStop evs = true := by
              simpa [hrs] using retrySingle_noBadStop env url (k + 1)
            simp [noBadStop] at hevs ⊢
            exact hevs
          · rename_i k2 evs hrs
            have hevs : noBadStop evs = true := by
              simpa [hrs] using retrySingle_noBadStop env url (k + 1)
            simp [noBadStop] at hevs ⊢
            exact hevs
          · rename_i v k2 evs hrs
            have hevs : noBadStop evs = true := by
              simpa [hrs] using retrySingle_noBadStop env url (k + 1)
            have hinv : v.correct = true ∨ urlTruthy v.url = true := by
              apply retrySingle_done_some env url (k + 1) v
              rw [hrs]
            split
            · rename_i u hvs
              have hrec := ih u (k2 + 1)
              simp [noBadStop] at hevs hrec ⊢
              exact ⟨hevs, hrec⟩
            · simp [noBadStop] at hevs ⊢
              exact hevs
            · rename_i hvs
              exact absurd hvs (verdictStep_ne_wrongStop v hinv)

/-- Witness for C10: with envC5 the attempt loop returns the concrete
wrong-but-redirected verdict, which indeed carries a next URL. -/
theorem C10_witness :
    Verdict.correct ⟨false, some "https://e.com/next", none⟩ = true ∨
      urlTruthy (Verdict.url ⟨false, some "https://e.com/next", none⟩) = true :=
  C10_wrong_no_url_unreachable.1 envC5 "https://e.com/submit" 3 0
    ⟨false, some "https://e.com/next", none⟩ rfl

/-- The elapsed reading a deadline-check event recorded, if any. -/
def checkObserved : OEvent → Option Nat
  | .checkOuter t => some t
  | .checkAttempt t => some t
  | _ => none

/-- All deadline checks in the list observed at most the timeout. -/
def checksOk (evs : List (Nat × OEvent)) : Bool :=
  evs.all (fun p => match checkObserved p.2 with
    | some t => decide (t ≤ QUIZ_TIMEOUT)
    | none => true)

/-- Every deadline check that observed more than the timeout is followed by
at most one further event (the stop marker that ends the run). -/
def stopsAtFailedCheck : List (Nat × OEvent) → Bool
  | [] => true
  | p :: rest =>
    match checkObserved p.2 with
    | some t => if QUIZ_TIMEOUT < t then decide (rest.length ≤ 1) else stopsAtFailedCheck rest
    | none => stopsAtFailedCheck rest

/-- Scanning past a stretch whose checks were all in time. -/
theorem stopsAt_append_of_ok :
    ∀ (xs ys : List (Nat × OEvent)), checksOk xs = true →
      stopsAtFailedCheck (xs ++ ys) = stopsAtFailedCheck ys := by
  intro xs
  induction xs with
  | nil => exact fun ys _ => rfl
  | cons p l ih =>
    intro ys h
    simp only [checksOk, List.all_cons, Bool.and_eq_true] at h
    obtain ⟨hp, hl⟩ := h
    cases hco : checkObserved p.2 with
    | none =>
      show stopsAtFailedCheck (p :: (l ++ ys)) = _
      simp only [stopsAtFailedCheck, hco]
      exact ih ys hl
    | some t =>
      rw [hco] at hp
      simp only [decide_eq_true_eq] at hp
      show stopsAtFailedCheck (p :: (l ++ ys)) = _
      simp only [stopsAtFailedCheck, hco]
      rw [if_neg (Nat.not_lt.mpr hp)]
      exact ih ys hl

/-- The attempt loop either kept every check within the deadline, or it ended
at a failing check: the trace then finishes with that check and no verdict is
returned. -/
theorem retryAttempts_checks :
    ∀ (env : OrcEnv) (su : String) (n k : Nat),
      checksOk (retryAttempts env su n k).2.2 = true ∨
      ((retryAttempts env su n k).1 = none ∧
        ∃ evs0 k3 t, (retryAttempts env su n k).2.2 = evs0 ++ [(k3, OEvent.checkAttempt t)] ∧
          checksOk evs0 = true ∧ QUIZ_TIMEOUT < t) := by
  intro env su n
  induction n with
  | zero => intro k; exact Or.inl rfl
  | succ m ih =>
    intro k
    simp only [retryAttempts]
    split
    · rename_i ht
      exact Or.inr ⟨rfl, [], k, env.time k, by simp, rfl, ht⟩
    · rename_i ht
      have hle : env.time k ≤ QUIZ_TIMEOUT := Nat.le_of_not_lt ht
      split
      · rcases ih (k + 2) with hok | ⟨hres, evs0, k3, t, hevs, hok0, hgt⟩
        · left
          simp [checksOk, checkObserved] at hok ⊢
          exact ⟨hle, hok⟩
        · right
          refine ⟨hres, (k, .checkAttempt (env.time k)) :: (k + 1, .llmCall) :: evs0,
            k3, t, by simp [hevs], ?_, hgt⟩
          simp [checksOk, checkObserved] at hok0 ⊢
          exact ⟨hle, hok0⟩
      · split
        · rcases ih (k + 3) with hok | ⟨hres, evs0, k3, t, hevs, hok0, hgt⟩
          · left
            simp [checksOk, checkObserved] at hok ⊢
            exact ⟨hle, hok⟩
          · right
            refine ⟨hres, (k, .checkAttempt (env.time k)) :: (k + 1, .llmCall)
              :: (k + 2, .submitCall su) :: evs0, k3, t, by simp [hevs], ?_, hgt⟩
            simp [checksOk, checkObserved] at hok0 ⊢
            exact ⟨hle, hok0⟩
        · split
          · left
            simp [checksOk, checkObserved, hle]
          · split
            · left
              simp [checksOk, checkObserved, hle]
            · rcases ih (k + 3) with hok | ⟨hres, evs0, k3, t, hevs, hok0, hgt⟩
              · left
                simp [checksOk, checkObserved] at hok ⊢
                exact ⟨hle, hok⟩
              · right
                refine ⟨hres, (k, .checkAttempt (env.time k)) :: (k + 1, .llmCall)
                  :: (k + 2, .submitCall su) :: evs0, k3, t, by simp [hevs], ?_, hgt⟩
                simp [checksOk, checkObserved] at hok0 ⊢
                exact ⟨hle, hok0⟩

/-- The per-page routine either kept every check within the deadline, or it
returned no verdict and its trace ends with the failing check. -/
theorem retrySingle_checks :
    ∀ (env : OrcEnv) (url : String) (k : Nat),
      checksOk (retrySingle env url k).2.2 = true ∨
      ((retrySingle env url k).1 = .done none ∧
        ∃ evs0 k3 t, (retrySingle env url k).2.2 = evs0 ++ [(k3, OEvent.checkAttempt t)] ∧
          checksOk evs0 = true ∧ QUIZ_TIMEOUT < t) := by
  intro env url k
  simp only [retrySingle]
  split
  · exact Or.inl rfl
  · split
    · exact Or.inl rfl
    · split
      · exact Or.inl rfl
      · split
        · exact Or.inl rfl
        · split
          · exact Or.inl rfl
          · rename_i su heq hne
            rcases retryAttempts_checks env su 3 (k + 1) with
              hok | ⟨hres, evs0, k3, t, hevs, hok0, hgt⟩
            · left
              simp [checksOk, checkObserved] at hok ⊢
              exact hok
            · right
              refine ⟨by simp [hres], (k, .render url) :: evs0, k3, t, by simp [hevs], ?_, hgt⟩
              simp [checksOk, checkObserved] at hok0 ⊢
              exact hok0

/-- C2 (amended): deadline enforcement is cooperative — the chain terminates
at the first deadline check (top of the outer loop, or before a solve
attempt) that observes more than the 180-second budget: in every run trace
such a check is followed by at most one event, the stop marker.  Blocking
operations already begun when the deadline passes still run to completion
(see the counterexample to the literal claim). -/
theorem C2_cooperative_deadline :
    ∀ (env : OrcEnv) (fuel : Nat) (url : String) (k : Nat),
      stopsAtFailedCheck (solveLoop env fuel url k) = true := by
  intro env fuel
  induction fuel with
  | zero => intro url k; rfl
  | succ m ih =>
    intro url k
    simp only [solveLoop]
    split
    · rfl
    · split
      · rename_i ht
        simp [stopsAtFailedCheck, checkObserved, ht]
      · rename_i ht
        split
        · rename_i k2 evs hrs
          rcases retrySingle_checks env url (k + 1) with hok | ⟨habs, _⟩
          · rw [hrs] at hok
            have hok2 : checksOk evs = true := hok
            show stopsAtFailedCheck ((k, OEvent.checkOuter (env.time k)) :: evs
              ++ [(k2, OEvent.stopExn)]) = true
            simp only [stopsAtFailedCheck, checkObserved, if_neg ht, List.append_eq]
            rw [stopsAt_append_of_ok evs _ hok2]
            rfl
          · rw [hrs] at habs
            simp at habs
        · rename_i k2 evs hrs
          rcases retrySingle_checks env url (k + 1) with hok | ⟨hres, evs0, k3, t, hevs, hok0, hgt⟩
          · rw [hrs] at hok
            have hok2 : checksOk evs = true := hok
            show stopsAtFailedCheck ((k, OEvent.checkOuter (env.time k)) :: evs
              ++ [(k2, OEvent.stopPageFail)]) = true
            simp only [stopsAtFailedCheck, checkObserved, if_neg ht, List.append_eq]
            rw [stopsAt_append_of_ok evs _ hok2]
            rfl
          · rw [hrs] at hevs
            have hevs2 : evs = evs0 ++ [(k3, OEvent.checkAttempt t)] := hevs
            show stopsAtFailedCheck ((k, OEvent.checkOuter (env.time k)) :: evs
              ++ [(k2, OEvent.stopPageFail)]) = true
            simp only [stopsAtFailedCheck, checkObserved, if_neg ht, List.append_eq]
            rw [hevs2, List.append_assoc, stopsAt_append_of_ok evs0 _ hok0]
            simp [stopsAtFailedCheck, checkObserved, hgt]
        · rename_i v k2 evs hrs
          rcases retrySingle_checks env url (k + 1) with hok | ⟨hres, _⟩
          · rw [hrs] at hok
            have hok2 : checksOk evs = true := hok
            split
            · rename_i u hvs
              show stopsAtFailedCheck ((k, OEvent.checkOuter (env.time k)) :: evs
                ++ (k2, OEvent.advance u) :: solveLoop env m u (k2 + 1)) = true
              simp only [stopsAtFailedCheck, checkObserved, if_neg ht, List.append_eq]
              rw [stopsAt_append_of_ok evs _ hok2]
              simp only [stopsAtFailedCheck, checkObserved]
              exact ih u (k2 + 1)
            · show stopsAtFailedCheck ((k, OEvent.checkOuter (env.time k)) :: evs
                ++ [(k2, OEvent.stopComplete)]) = true
              simp only [stopsAtFailedCheck, checkObserved, if_neg ht, List.append_eq]
              rw [stopsAt_append_of_ok evs _ hok2]
              rfl
            · show stopsAtFailedCheck ((k, OEvent.checkOuter (env.time k)) :: evs
                ++ [(k2, OEvent.stopWrongNoUrl)]) = true
              simp only [stopsAtFailedCheck, checkObserved, if_neg ht, List.append_eq]
              rw [stopsAt_append_of_ok evs _ hok2]
              rfl
          · rw [hrs] at hres
            simp at hres

/-- The literal reading of C2: in every run trace only the final event may
occur at an elapsed time beyond the deadline — the chain terminates the
instant the deadline passes, wherever in the loop it is. -/
def InstantTermination (env : OrcEnv) (fuel : Nat) (url : String) : Prop :=
  ∀ (i j : Nat) (p q : Nat × OEvent),
    (solveLoop env fuel url 0)[i]? = some p →
    (solveLoop env fuel url 0)[j]? = some q →
    i < j → env.time p.1 ≤ QUIZ_TIMEOUT

/-- A schedule on which the deadline passes while the answer engine runs: the
attempt check reads 179 s, the engine returns at 185 s, and the submission
(190 s) and the advance to the next page still happen; only the next outer
check (200 s) stops the chain. -/
def envC2 : OrcEnv :=
  ⟨fun k => [100, 110, 179, 185, 190, 195, 200, 205].getD k 210,
   fun _ => some ⟨some "Post to https://e.com/a", [], ""⟩,
   fun _ => some (.int 1),
   fun _ => some ⟨true, some "https://e.com/b", none⟩⟩

/-- C2: the claim that the chain terminates the instant the deadline passes,
regardless of where in the loop execution is, fails on the code: with envC2
the engine call at step 3 runs at 185 s > 180 s, yet the trace continues with
a submission and an advance — the deadline is only consulted at the top of
the outer loop and before each attempt. -/
theorem C2_counterexample : ¬ InstantTermination envC2 3 "https://e.com/start" := by
  intro h
  have h34 := h 3 4 (3, OEvent.llmCall) (4, OEvent.submitCall "https://e.com/a")
    (by decide) (by decide) (by decide)
  exact absurd h34 (by decide)

/-! ## C7: round-trip through json.dumps and the object-scan path

The counterexample (a brace inside a string value) and the amended round-trip
theorem need exact lemmas about the decimal, string and object renderings of
json.dumps and their re-parsing, plus the behaviour of the brace-scan regex
on such renderings. -/

/-- takeWhile/dropWhile split of a concatenation at a known failure point. -/
theorem takeWhile_app_eq (p : Char → Bool) :
    ∀ (xs ys : List Char), (∀ x ∈ xs, p x = true) →
      (match ys with | [] => True | y :: _ => p y = false) →
      (xs ++ ys).takeWhile p = xs ∧ (xs ++ ys).dropWhile p = ys := by
  intro xs
  induction xs with
  | nil =>
    intro ys _ hy
    cases ys with
    | nil => exact ⟨rfl, rfl⟩
    | cons y t =>
      simp only [List.nil_append, List.takeWhile_cons, List.dropWhile_cons] at hy ⊢
      simp [hy]
  | cons x xs ih =>
    intro ys hx hy
    have hx0 := hx x (List.mem_cons_self x xs)
    obtain ⟨h1, h2⟩ := ih ys (fun c hc => hx c (List.mem_cons_of_mem x hc)) hy
    simp [List.takeWhile_cons, List.dropWhile_cons, hx0, h1, h2]

/-- Folding the decimal accumulator from a non-zero start. -/
theorem decFold (ys : List Char) : ∀ a : Nat,
    ys.foldl (fun n c => 10 * n + digitVal c) a
      = a * 10 ^ ys.length + ys.foldl (fun n c => 10 * n + digitVal c) 0 := by
  induction ys with
  | nil => intro a; simp
  | cons y t ih =>
    intro a
    simp only [List.foldl_cons, List.length_cons]
    rw [ih (10 * a + digitVal y), ih (10 * 0 + digitVal y)]
    ring

/-- Value of a concatenation of digit runs. -/
theorem decValue_app (xs ys : List Char) :
    decValue (xs ++ ys) = decValue xs * 10 ^ ys.length + decValue ys := by
  unfold decValue
  rw [List.foldl_append, decFold]

/-- digitChar always yields a digit character. -/
theorem isDigitCh_digitChar (d : Nat) : isDigitCh (digitChar d) = true := by
  unfold digitChar
  split_ifs <;> rfl

/-- digitChar inverts digitVal below ten. -/
theorem digitVal_digitChar (d : Nat) (h : d < 10) : digitVal (digitChar d) = d := by
  interval_cases d <;> rfl

/-- Non-zero digits do not render as the zero character. -/
theorem digitChar_ne_zero (d : Nat) (h1 : 0 < d) (h2 : d < 10) : digitChar d ≠ '0' := by
  interval_cases d <;> decide

/-- The digit accumulator only prepends to its accumulator. -/
theorem natDigitsGo_shift : ∀ (fuel n : Nat) (acc : List Char),
    natDigitsGo fuel n acc = natDigitsGo fuel n [] ++ acc := by
  intro fuel
  induction fuel with
  | zero => intro n acc; rfl
  | succ f ih =>
    intro n acc
    simp only [natDigitsGo]
    by_cases h : n = 0
    · simp [h]
    · rw [if_neg h, if_neg h, ih (n / 10) (digitChar (n % 10) :: acc),
        ih (n / 10) [digitChar (n % 10)]]
      simp

/-- Exhausted value renders to the bare accumulator. -/
theorem natDigitsGo_zero (fuel : Nat) (acc : List Char) : natDigitsGo fuel 0 acc = acc := by
  cases fuel <;> rfl

/-- Every character the digit accumulator emits is a digit. -/
theorem natDigitsGo_digits : ∀ (fuel n : Nat), ∀ c ∈ natDigitsGo fuel n [], isDigitCh c = true := by
  intro fuel
  induction fuel with
  | zero => intro n c hc; simp [natDigitsGo] at hc
  | succ f ih =>
    intro n c hc
    simp only [natDigitsGo] at hc
    by_cases h : n = 0
    · rw [if_pos h] at hc
      simp at hc
    · rw [if_neg h, natDigitsGo_shift] at hc
      rcases List.mem_append.mp hc with h1 | h1
      · exact ih (n / 10) c h1
      · simp at h1
        rw [h1]
        exact isDigitCh_digitChar (n % 10)

/-- The digit run re-evaluates to the rendered number. -/
theorem decValue_natDigitsGo : ∀ (fuel n : Nat), n < 10 ^ fuel →
    decValue (natDigitsGo fuel n []) = n := by
  intro fuel
  induction fuel with
  | zero =>
    intro n h
    interval_cases n
    rfl
  | succ f ih =>
    intro n h
    simp only [natDigitsGo]
    by_cases h0 : n = 0
    · simp [h0, decValue]
    · rw [if_neg h0, natDigitsGo_shift, decValue_app]
      have hd : n / 10 < 10 ^ f := by
        rw [Nat.div_lt_iff_lt_mul (by norm_num)]
        calc n < 10 ^ (f + 1) := h
        _ = 10 ^ f * 10 := by ring
      rw [ih (n / 10) hd]
      have hm : digitVal (digitChar (n % 10)) = n % 10 :=
        digitVal_digitChar (n % 10) (Nat.mod_lt n (by norm_num))
      simp [decValue, hm]
      omega

/-- The leading rendered digit of a positive number is a non-zero digit. -/
theorem natDigitsGo_head : ∀ (fuel n : Nat), 0 < n → n < 10 ^ fuel →
    ∃ d t, natDigitsGo fuel n [] = digitChar d :: t ∧ 0 < d ∧ d < 10 := by
  intro fuel
  induction fuel with
  | zero => intro n h1 h2; omega
  | succ f ih =>
    intro n h1 h2
    simp only [natDigitsGo, if_neg (Nat.pos_iff_ne_zero.mp h1)]
    by_cases hq : n / 10 = 0
    · rw [hq, natDigitsGo_zero]
      have hn10 : n < 10 := by omega
      exact ⟨n % 10, [], by rw [Nat.mod_eq_of_lt hn10], by omega, by omega⟩
    · have hd : n / 10 < 10 ^ f := by
        rw [Nat.div_lt_iff_lt_mul (by norm_num)]
        calc n < 10 ^ (f + 1) := h2
        _ = 10 ^ f * 10 := by ring
      obtain ⟨d, t, heq, hd1, hd2⟩ := ih (n / 10) (Nat.pos_iff_ne_zero.mpr hq) hd
      rw [natDigitsGo_shift, heq]
      exact ⟨d, t ++ [digitChar (n % 10)], by simp, hd1, hd2⟩

/-- Any number is below ten to its own power. -/
theorem lt_ten_pow_self (n : Nat) : n < 10 ^ (n + 1) := by
  calc n < n + 1 := Nat.lt_succ_self n
  _ ≤ 10 ^ (n + 1) := Nat.lt_pow_self (by norm_num) (n + 1) |>.le

/-- natDigitChars facts: non-empty, all digits, value, leading digit. -/
theorem natDigitChars_spec (n : Nat) :
    natDigitChars n ≠ [] ∧ (∀ c ∈ natDigitChars n, isDigitCh c = true) ∧
      decValue (natDigitChars n) = n ∧
      (0 < n → (natDigitChars n).headD '0' ≠ '0') := by
  unfold natDigitChars
  by_cases h : n = 0
  · subst h
    exact ⟨by decide, by decide, by decide, by decide⟩
  · rw [if_neg h]
    have hb := lt_ten_pow_self n
    obtain ⟨d, t, heq, hd1, hd2⟩ := natDigitsGo_head (n + 1) n (by omega) hb
    refine ⟨by rw [heq]; simp, natDigitsGo_digits (n + 1) n,
      decValue_natDigitsGo (n + 1) n hb, fun _ => ?_⟩
    rw [heq]
    simpa using digitChar_ne_zero d hd1 hd2

/-- A digit character is none of the structural characters number parsing
looks for. -/
theorem isDigitCh_ne (c : Char) (h : isDigitCh c = true) :
    c ≠ '-' ∧ c ≠ '.' ∧ c ≠ 'e' ∧ c ≠ 'E' := by
  refine ⟨?_, ?_, ?_, ?_⟩ <;> intro e <;> rw [e] at h <;> exact absurd h (by decide)

/-- The separator class that can follow a value inside a dumps rendering:
end of input, a comma, or the closing brace. -/
def SepOk (rest : List Char) : Prop :=
  rest = [] ∨ ∃ r, rest = ',' :: r ∨ rest = braceC :: r

/-- A separator head fails the digit, dot and exponent tests. -/
theorem sepOk_head (rest : List Char) (h : SepOk rest) :
    (match rest with | [] => True | y :: _ => isDigitCh y = false) ∧
    (∀ c r, rest = c :: r → c ≠ '.' ∧ c ≠ 'e' ∧ c ≠ 'E' ∧ jsonWs c = false) := by
  rcases h with h | ⟨r, h | h⟩ <;> subst h
  · exact ⟨trivial, by intro c r e; cases e⟩
  · refine ⟨rfl, ?_⟩
    intro c r2 e
    cases e
    refine ⟨by decide, by decide, by decide, rfl⟩
  · refine ⟨rfl, ?_⟩
    intro c r2 e
    cases e
    refine ⟨by decide, by decide, by decide, rfl⟩

/-- The number reader on a rendered natural number followed by a separator. -/
theorem readNumCore_nat (n : Nat) (rest : List Char) (hsep : SepOk rest) :
    readNumCore (natDigitChars n ++ rest) = some (.int (Int.ofNat n), rest) := by
  obtain ⟨hne, hdig, hval, hhead⟩ := natDigitChars_spec n
  obtain ⟨htk, hdr⟩ := takeWhile_app_eq isDigitCh (natDigitChars n) rest hdig (by
    rcases hsep with h | ⟨r, h | h⟩ <;> subst h
    · trivial
    · rfl
    · rfl)
  obtain ⟨c0, t0, heq0⟩ : ∃ c0 t0, natDigitChars n = c0 :: t0 := by
    cases hh : natDigitChars n with
    | nil => exact absurd hh hne
    | cons a b => exact ⟨a, b, rfl⟩
  have hc0 : isDigitCh c0 = true := hdig c0 (by rw [heq0]; exact List.mem_cons_self c0 t0)
  simp only [readNumCore]
  rw [htk, hdr]
  rw [if_neg (by simp [hne]), if_neg ?hlz]
  case hlz =>
    by_cases hn0 : n = 0
    · have : natDigitChars n = ['0'] := by simp [natDigitChars, hn0]
      simp [this]
    · have := hhead (Nat.pos_iff_ne_zero.mpr hn0)
      rw [heq0] at this ⊢
      simp at this
      simp [this]
  rcases hsep with hr | ⟨r, hr | hr⟩ <;> subst hr
  · simp [hval]
  · simp [hval]
  · have h1 : ¬ braceC = '.' := by decide
    have h2 : braceC ≠ 'e' := by decide
    have h3 : braceC ≠ 'E' := by decide
    simp [hval, h1, h2, h3]

/-- The number reader on a rendered integer followed by a separator. -/
theorem readNum_int (i : Int) (rest : List Char) (hsep : SepOk rest) :
    readNum (intDecChars i ++ rest) = some (.int i, rest) := by
  obtain ⟨hne, hdig, _, _⟩ := natDigitChars_spec i.natAbs
  obtain ⟨c0, t0, heq0⟩ : ∃ c0 t0, natDigitChars i.natAbs = c0 :: t0 := by
    cases hh : natDigitChars i.natAbs with
    | nil => exact absurd hh hne
    | cons a b => exact ⟨a, b, rfl⟩
  have hc0 : isDigitCh c0 = true := hdig c0 (by rw [heq0]; exact List.mem_cons_self c0 t0)
  have hc0m : c0 ≠ '-' := (isDigitCh_ne c0 hc0).1
  unfold intDecChars
  by_cases h : i < 0
  · rw [if_pos h]
    have hstep : readNum (('-' :: natDigitChars i.natAbs) ++ rest)
        = (readNumCore (natDigitChars i.natAbs ++ rest)).map (fun p => (pyNegate p.1, p.2)) := by
      rw [List.cons_append]
      rfl
    rw [hstep, readNumCore_nat i.natAbs rest hsep]
    simp only [Option.map_some', pyNegate]
    have h2 : (Int.ofNat i.natAbs) = -i := by
      simp only [Int.ofNat_eq_coe]
      omega
    rw [h2, neg_neg]
  · rw [if_neg h]
    have hr : readNum (natDigitChars i.natAbs ++ rest)
        = readNumCore (natDigitChars i.natAbs ++ rest) := by
      rw [heq0, List.cons_append, readNum, if_neg hc0m]
    rw [hr, readNumCore_nat i.natAbs rest hsep]
    have h2 : Int.ofNat i.natAbs = i := by
      simp only [Int.ofNat_eq_coe]
      omega
    rw [h2]

/-- A good (printable-ASCII, quote-, backslash- and brace-free) character is
rendered by json.dumps as itself. -/
def goodChar (c : Char) : Bool :=
  32 ≤ c.toNat && c.toNat ≤ 126 && c != dquote && c != bslash && c != braceO && c != braceC

/-- A string over good characters. -/
def goodStrB (s : String) : Bool := s.data.all goodChar

theorem dumpsChar_good (c : Char) (h : goodChar c = true) : dumpsChar c = [c] := by
  simp only [goodChar, Bool.and_eq_true, decide_eq_true_eq, bne_iff_ne, ne_eq] at h
  obtain ⟨⟨⟨⟨⟨h1, h2⟩, h3⟩, h4⟩, h5⟩, h6⟩ := h
  unfold dumpsChar
  rw [if_neg h3, if_neg h4]
  rw [if_neg (fun e => by rw [e] at h1; exact absurd h1 (by decide))]
  rw [if_neg (fun e => by rw [e] at h1; exact absurd h1 (by decide))]
  rw [if_neg (fun e => by rw [e] at h1; exact absurd h1 (by decide))]
  rw [if_neg (by omega), if_neg (by omega), if_neg (by omega), if_pos (by omega)]

/-- json.dumps renders a good string as itself between plain quotes. -/
theorem dumpsStrChars_good (s : String) (h : goodStrB s = true) :
    dumpsStrChars s = dquote :: s.data ++ [dquote] := by
  unfold dumpsStrChars
  simp only [goodStrB, List.all_eq_true] at h
  congr 1
  have : s.data.map dumpsChar = s.data.map (fun c => [c]) :=
    List.map_congr_left (fun c hc => dumpsChar_good c (h c hc))
  rw [this]
  have : ∀ l : List Char, (l.map (fun c => [c])).flatten = l := by
    intro l
    induction l with
    | nil => rfl
    | cons a t ih => simp [ih]
  rw [this]

/-- The string-body reader undoes the rendering of a good string. -/
theorem readStrGo_good :
    ∀ (cs : List Char) (rest acc : List Char) (fuel : Nat),
      (∀ c ∈ cs, goodChar c = true) → cs.length + 1 ≤ fuel →
      readStrGo fuel (cs ++ dquote :: rest) acc = some (acc.reverse ++ cs, rest) := by
  intro cs
  induction cs with
  | nil =>
    intro rest acc fuel _ hf
    obtain ⟨f, rfl⟩ : ∃ f, fuel = f + 1 := ⟨fuel - 1, by omega⟩
    simp [readStrGo]
  | cons c cs ih =>
    intro rest acc fuel hg hf
    obtain ⟨f, rfl⟩ : ∃ f, fuel = f + 1 := ⟨fuel - 1, by omega⟩
    have hc := hg c (List.mem_cons_self c cs)
    simp only [goodChar, Bool.and_eq_true, decide_eq_true_eq, bne_iff_ne, ne_eq] at hc
    obtain ⟨⟨⟨⟨⟨h1, h2⟩, h3⟩, h4⟩, h5⟩, h6⟩ := hc
    simp only [List.cons_append, readStrGo, if_neg h3, if_neg h4]
    rw [if_neg (by omega), List.append_eq]
    rw [ih rest (c :: acc) f (fun x hx => hg x (List.mem_cons_of_mem c hx)) (by
      simp only [List.length_cons] at hf
      omega)]
    simp

/-- Literal tails are consumed exactly. -/
theorem expectLit_app (p : List Char) : ∀ rest : List Char, expectLit p (p ++ rest) = some rest := by
  induction p with
  | nil => intro rest; rfl
  | cons c t ih => intro rest; simp [expectLit, ih]

/-- Entries of an object spine as a key/value list. -/
def spineEntries : PyVal → List (String × PyVal)
  | .objCons k v t => (k, v) :: spineEntries t
  | _ => []

/-- Keys of an object spine. -/
def objKeys : PyVal → List String
  | .objCons k _ t => k :: objKeys t
  | _ => []

/-- Pairwise-distinct key list. -/
def distinctKeys : List String → Bool
  | [] => true
  | k :: rest => rest.all (fun x => x != k) && distinctKeys rest

/-- Atoms of the modelled round-trip class. -/
def goodAtom : PyVal → Bool
  | .null => true
  | .bool _ => true
  | .int _ => true
  | .str s => goodStrB s
  | _ => false

/-- An object spine whose keys are good strings and whose values satisfy gv,
terminated by objNil. -/
def goodSpine (gv : PyVal → Bool) : PyVal → Bool
  | .objNil => true
  | .objCons k v t => goodStrB k && gv v && goodSpine gv t
  | _ => false

/-- A good entry value: an atom, or an object of atoms with distinct keys. -/
def goodVal (v : PyVal) : Bool :=
  match v with
  | .objNil => true
  | .objCons _ _ _ => goodSpine goodAtom v && distinctKeys (objKeys v)
  | _ => goodAtom v

/-- The modelled class of C7: an object whose values are atoms or one-level
objects of atoms, every string printable ASCII without quotes, backslashes or
braces, and keys distinct at each level. -/
def goodObjB (v : PyVal) : Bool :=
  match v with
  | .objNil => true
  | .objCons _ _ _ => goodSpine goodVal v && distinctKeys (objKeys v)
  | _ => false

/-- Parser fuel bounds: first component enough for one value, second enough
for the entry loop over the remaining spine. -/
def needs : PyVal → Nat × Nat
  | .objCons _ v t => (1 + (needs v).1 + (needs t).2 + 3, 1 + (needs v).1 + (needs t).2)
  | .objNil => (2, 0)
  | _ => (1, 0)

/-- The rendering of an object's entries together with the closing brace
(dumpVal of the object without its opening brace). -/
def spineRender : PyVal → List Char
  | .objCons k v t => dumpsStrChars k ++ ':' :: ' ' :: dumpB false v ++ dumpB true t
  | _ => [braceC]

theorem dumpVal_obj (k : String) (v t : PyVal) :
    dumpVal (.objCons k v t) = braceO :: spineRender (.objCons k v t) := rfl

theorem dumpB_true_cons (k : String) (v t : PyVal) :
    dumpB true (.objCons k v t) = ',' :: ' ' :: spineRender (.objCons k v t) := rfl

/-- Inserting a fresh key appends. -/
theorem objInsert_fresh (k : String) (v : PyVal) :
    ∀ acc : List (String × PyVal), (∀ kv ∈ acc, kv.1 ≠ k) →
      objInsert k v acc = acc ++ [(k, v)] := by
  intro acc
  induction acc with
  | nil => intro _; rfl
  | cons kv t ih =>
    intro h
    have hk := h kv (List.mem_cons_self kv t)
    simp only [objInsert, if_neg hk, List.cons_append]
    rw [ih (fun x hx => h x (List.mem_cons_of_mem kv hx))]

/-- Rebuilding a spine from its entry list. -/
theorem listToObj_spineEntries (gv : PyVal → Bool) :
    ∀ w : PyVal, goodSpine gv w = true → listToObj (spineEntries w) = w := by
  intro w
  induction w with
  | objNil => intro _; rfl
  | objCons k v t ihv iht =>
    intro h
    simp only [goodSpine, Bool.and_eq_true] at h
    simp only [spineEntries, listToObj, List.foldr_cons]
    show PyVal.objCons k v (listToObj (spineEntries t)) = _
    rw [iht h.2]
  | null => intro h; cases h
  | bool b => intro h; cases h
  | int i => intro h; cases h
  | float q => intro h; cases h
  | str s => intro h; cases h
  | arrNil => intro h; cases h
  | arrCons a b _ _ => intro h; cases h

/-- The value branch of the reader when the head is numeric. -/
theorem parseF_pv_num (fuel : Nat) (c : Char) (l : List Char)
    (hws : jsonWs c = false) (h1 : c ≠ dquote) (h2 : c ≠ braceO) (h3 : c ≠ '[')
    (h4 : c ≠ 't') (h5 : c ≠ 'f') (h6 : c ≠ 'n') (h7 : (c = '-' || isDigitCh c) = true) :
    parseF (fuel + 1) .pv (c :: l) = readNum (c :: l) := by
  have hsk : skipWs (c :: l) = c :: l := by simp [skipWs, hws]
  simp only [parseF, hsk, if_neg h1, if_neg h2, if_neg h3, if_neg h4, if_neg h5, if_neg h6,
    if_pos h7]

/-- A digit or minus head passes none of the keyword tests. -/
theorem numHead_ne (c : Char) (h : c = '-' ∨ isDigitCh c = true) :
    jsonWs c = false ∧ c ≠ dquote ∧ c ≠ braceO ∧ c ≠ '[' ∧ c ≠ 't' ∧ c ≠ 'f' ∧ c ≠ 'n' := by
  rcases h with h | h
  · subst h
    refine ⟨rfl, by decide, by decide, by decide, by decide, by decide, by decide⟩
  · simp only [isDigitCh, Bool.and_eq_true, decide_eq_true_eq] at h
    obtain ⟨ha, hb⟩ := h
    refine ⟨?_, ?_, ?_, ?_, ?_, ?_, ?_⟩
    · simp only [jsonWs]
      have : ∀ x : Char, 48 ≤ x.toNat → x.toNat ≤ 57 → (x = ' ' ∨ x = '\t' ∨ x = '\n' ∨ x = '\r') → False := by
        intro x hx1 hx2 hc
        rcases hc with e | e | e | e <;> (subst e; simp at hx1 hx2) <;> omega
      by_contra hb2
      simp only [Bool.or_eq_true, decide_eq_true_eq, Bool.not_eq_false] at hb2
      exact this c ha hb (by tauto)
    · intro e; rw [e] at ha hb; revert ha hb; decide
    · intro e; rw [e] at ha hb; revert ha hb; decide
    · intro e; rw [e] at ha hb; revert ha hb; decide
    · intro e; rw [e] at ha hb; revert ha hb; decide
    · intro e; rw [e] at ha hb; revert ha hb; decide
    · intro e; rw [e] at ha hb; revert ha hb; decide

/-- The reader on a rendered atom followed by a separator. -/
theorem parseF_atom (v : PyVal) (rest : List Char) (fuel : Nat)
    (hv : goodAtom v = true) (hsep : SepOk rest) :
    parseF (fuel + 1) .pv (dumpVal v ++ rest) = some (v, rest) := by
  cases v with
  | null =>
    have hstep : parseF (fuel + 1) .pv ('n' :: (['u', 'l', 'l'] ++ rest))
        = (expectLit ['u', 'l', 'l'] (['u', 'l', 'l'] ++ rest)).map
            (fun r => (PyVal.null, r)) := rfl
    show parseF (fuel + 1) .pv ('n' :: (['u', 'l', 'l'] ++ rest)) = _
    rw [hstep, expectLit_app]
    rfl
  | bool b =>
    cases b with
    | true =>
      have hstep : parseF (fuel + 1) .pv ('t' :: (['r', 'u', 'e'] ++ rest))
          = (expectLit ['r', 'u', 'e'] (['r', 'u', 'e'] ++ rest)).map
              (fun r => (PyVal.bool true, r)) := rfl
      show parseF (fuel + 1) .pv ('t' :: (['r', 'u', 'e'] ++ rest)) = _
      rw [hstep, expectLit_app]
      rfl
    | false =>
      have hstep : parseF (fuel + 1) .pv ('f' :: (['a', 'l', 's', 'e'] ++ rest))
          = (expectLit ['a', 'l', 's', 'e'] (['a', 'l', 's', 'e'] ++ rest)).map
              (fun r => (PyVal.bool false, r)) := rfl
      show parseF (fuel + 1) .pv ('f' :: (['a', 'l', 's', 'e'] ++ rest)) = _
      rw [hstep, expectLit_app]
      rfl
  | int i =>
    show parseF (fuel + 1) .pv (intDecChars i ++ rest) = some (.int i, rest)
    obtain ⟨hne, hdig, _, _⟩ := natDigitChars_spec i.natAbs
    obtain ⟨c0, l0, heq0, hc0⟩ :
        ∃ c0 l0, intDecChars i = c0 :: l0 ∧ (c0 = '-' ∨ isDigitCh c0 = true) := by
      unfold intDecChars
      by_cases h : i < 0
      · rw [if_pos h]
        exact ⟨'-', natDigitChars i.natAbs, rfl, Or.inl rfl⟩
      · rw [if_neg h]
        cases hh : natDigitChars i.natAbs with
        | nil => exact absurd hh hne
        | cons a b =>
          exact ⟨a, b, rfl, Or.inr (hdig a (by rw [hh]; exact List.mem_cons_self a b))⟩
    obtain ⟨hws, h1, h2, h3, h4, h5, h6⟩ := numHead_ne c0 hc0
    have h7 : (c0 = '-' || isDigitCh c0) = true := by
      rcases hc0 with h | h
      · simp [h]
      · simp [h]
    rw [heq0, List.cons_append, parseF_pv_num fuel c0 _ hws h1 h2 h3 h4 h5 h6 h7,
      ← List.cons_append, ← heq0]
    exact readNum_int i rest hsep
  | float q => exact absurd hv (by simp [goodAtom])
  | str s =>
    have hg : goodStrB s = true := hv
    show parseF (fuel + 1) .pv (dumpsStrChars s ++ rest) = some (.str s, rest)
    rw [dumpsStrChars_good s hg]
    have hin : (dquote :: s.data ++ [dquote]) ++ rest = dquote :: (s.data ++ dquote :: rest) := by
      simp
    rw [hin]
    have hsk : skipWs (dquote :: (s.data ++ dquote :: rest))
        = dquote :: (s.data ++ dquote :: rest) := by
      simp [skipWs, show jsonWs dquote = false from rfl]
    simp only [parseF, hsk, if_pos rfl]
    rw [readStrGo_good s.data rest [] ((s.data ++ dquote :: rest).length + 1)
      (by simpa [goodStrB, List.all_eq_true] using hg)
      (by simp)]
    simp
  | arrNil => exact absurd hv (by simp [goodAtom])
  | arrCons a b => exact absurd hv (by simp [goodAtom])
  | objNil => exact absurd hv (by simp [goodAtom])
  | objCons k v t => exact absurd hv (by simp [goodAtom])

/-- Keys of a spine are fresh with respect to an accumulator. -/
def spineFresh (w : PyVal) (acc : List (String × PyVal)) : Bool :=
  (objKeys w).all (fun k => acc.all (fun kv => kv.1 != k))

/-- A leading space is transparent to the value reader. -/
theorem parseF_pv_space (F : Nat) (l : List Char) :
    parseF F .pv (' ' :: l) = parseF F .pv l := by
  cases F with
  | zero => rfl
  | succ f => rfl

/-- The head of a rendered tail is a separator. -/
theorem sepOk_dumpB_true (gv : PyVal → Bool) (t : PyVal) (rest : List Char)
    (h : goodSpine gv t = true) : SepOk (dumpB true t ++ rest) := by
  cases t with
  | objNil => exact Or.inr ⟨rest, Or.inr rfl⟩
  | objCons k v t2 => exact Or.inr ⟨_, Or.inl rfl⟩
  | null => cases h
  | bool b => cases h
  | int i => cases h
  | float q => cases h
  | str s => cases h
  | arrNil => cases h
  | arrCons a b => cases h

/-- One step of the object-entry reader on a good key whose value's parse is
known, ending at the object's closing brace. -/
theorem parseF_entry_close (F : Nat) (acc : List (String × PyVal))
    (ks r2 r3 r4 : List Char) (v : PyVal)
    (hgood : ∀ c ∈ ks, goodChar c = true)
    (hv : parseF F .pv r2 = some (v, r3))
    (h3 : skipWs r3 = braceC :: r4) :
    parseF (F + 1) (.pobjEntry acc) (dquote :: (ks ++ dquote :: ':' :: r2))
      = some (listToObj (objInsert (String.mk ks) v acc), r4) := by
  have hsk : skipWs (':' :: r2) = ':' :: r2 := rfl
  simp only [parseF, eq_self_iff_true, if_true]
  rw [readStrGo_good ks (':' :: r2) [] ((ks ++ dquote :: ':' :: r2).length + 1) hgood
    (by simp only [List.length_append, List.length_cons]; omega)]
  simp only [List.reverse_nil, List.nil_append, hsk, hv, h3, eq_self_iff_true, if_true]
  rfl

/-- One step of the object-entry reader on a good key whose value's parse is
known, continuing past a comma to the next entry. -/
theorem parseF_entry_next (F : Nat) (acc : List (String × PyVal))
    (ks r2 r3 r4 r5 : List Char) (d : Char) (v : PyVal)
    (hgood : ∀ c ∈ ks, goodChar c = true)
    (hv : parseF F .pv r2 = some (v, r3))
    (h3 : skipWs r3 = ',' :: r4)
    (h4 : skipWs r4 = d :: r5) :
    parseF (F + 1) (.pobjEntry acc) (dquote :: (ks ++ dquote :: ':' :: r2))
      = parseF F (.pobjEntry (objInsert (String.mk ks) v acc)) (d :: r5) := by
  have hsk : skipWs (':' :: r2) = ':' :: r2 := rfl
  simp only [parseF, eq_self_iff_true, if_true]
  rw [readStrGo_good ks (':' :: r2) [] ((ks ++ dquote :: ':' :: r2).length + 1) hgood
    (by simp only [List.length_append, List.length_cons]; omega)]
  simp only [List.reverse_nil, List.nil_append, hsk, hv, h3, h4, eq_self_iff_true, if_true]

/-- The entry loop of the object reader undoes the rendering of a good spine,
appending its entries to the accumulator.  The value reader for the class gv
enters as a hypothesis so that the lemma serves both the inner (atom-valued)
and the top (atom-or-object-valued) levels. -/
theorem parse_entry_loop (gv : PyVal → Bool)
    (hV : ∀ (v : PyVal) (rest : List Char) (fuel : Nat), gv v = true → SepOk rest →
      parseF ((needs v).1 + fuel) .pv (dumpVal v ++ rest) = some (v, rest)) :
    ∀ (t : PyVal) (k : String) (v : PyVal) (acc : List (String × PyVal))
      (rest : List Char) (fuel : Nat),
      goodStrB k = true → gv v = true → goodSpine gv t = true →
      distinctKeys (objKeys (PyVal.objCons k v t)) = true →
      spineFresh (PyVal.objCons k v t) acc = true →
      parseF ((needs (PyVal.objCons k v t)).2 + fuel + 1) (.pobjEntry acc)
          (spineRender (PyVal.objCons k v t) ++ rest)
        = some (listToObj (acc ++ (k, v) :: spineEntries t), rest) := by
  intro t
  induction t with
  | objNil =>
    intro k v acc rest fuel hk hv ht hd hf
    have hfk : ∀ kv ∈ acc, kv.1 ≠ k := by
      simp only [spineFresh, objKeys, List.all_cons, List.all_eq_true, Bool.and_eq_true,
        bne_iff_ne, ne_eq] at hf
      exact fun kv hkv => hf.1 kv hkv
    have hgk : ∀ c ∈ k.data, goodChar c = true := by
      simpa [goodStrB, List.all_eq_true] using hk
    have hbody : spineRender (PyVal.objCons k v PyVal.objNil) ++ rest
        = dquote :: (k.data ++ dquote ::
            ':' :: (' ' :: (dumpVal v ++ (dumpB true PyVal.objNil ++ rest)))) := by
      simp [spineRender, dumpsStrChars_good k hk, dumpVal]
    have hfuel : (needs (PyVal.objCons k v PyVal.objNil)).2 + fuel + 1
        = ((needs v).1 + (fuel + 1)) + 1 := by
      simp only [needs]
      omega
    rw [hbody, hfuel]
    have hval : parseF ((needs v).1 + (fuel + 1)) .pv
        (' ' :: (dumpVal v ++ (dumpB true PyVal.objNil ++ rest)))
        = some (v, dumpB true PyVal.objNil ++ rest) := by
      rw [parseF_pv_space]
      exact hV v _ (fuel + 1) hv (sepOk_dumpB_true gv PyVal.objNil rest rfl)
    have hs3 : skipWs (dumpB true PyVal.objNil ++ rest) = braceC :: rest := rfl
    rw [parseF_entry_close ((needs v).1 + (fuel + 1)) acc k.data _ _ _ v hgk hval hs3]
    rw [show String.mk k.data = k from rfl, objInsert_fresh k v acc hfk]
    simp [spineEntries]
  | objCons k2 v2 t2 ihv iht =>
    intro k v acc rest fuel hk hv ht hd hf
    have hk2 : goodStrB k2 = true := by
      simp only [goodSpine, Bool.and_eq_true] at ht
      exact ht.1.1
    have hv2 : gv v2 = true := by
      simp only [goodSpine, Bool.and_eq_true] at ht
      exact ht.1.2
    have ht2 : goodSpine gv t2 = true := by
      simp only [goodSpine, Bool.and_eq_true] at ht
      exact ht.2
    have hf0 : ((acc.all fun kv => kv.1 != k)
        && (objKeys (PyVal.objCons k2 v2 t2)).all
            (fun x => acc.all fun kv => kv.1 != x)) = true := hf
    have hfk : ∀ kv ∈ acc, kv.1 ≠ k := by
      have h := hf0
      rw [Bool.and_eq_true] at h
      simpa [List.all_eq_true, bne_iff_ne, ne_eq] using h.1
    have hgk : ∀ c ∈ k.data, goodChar c = true := by
      simpa [goodStrB, List.all_eq_true] using hk
    have hbody : spineRender (PyVal.objCons k v (PyVal.objCons k2 v2 t2)) ++ rest
        = dquote :: (k.data ++ dquote ::
            ':' :: (' ' :: (dumpVal v ++
              (dumpB true (PyVal.objCons k2 v2 t2) ++ rest)))) := by
      simp [spineRender, dumpsStrChars_good k hk, dumpVal]
    have hfuel : (needs (PyVal.objCons k v (PyVal.objCons k2 v2 t2))).2 + fuel + 1
        = ((needs v).1 + ((needs (PyVal.objCons k2 v2 t2)).2 + fuel + 1)) + 1 := by
      simp only [needs]
      omega
    rw [hbody, hfuel]
    have hval : parseF ((needs v).1 + ((needs (PyVal.objCons k2 v2 t2)).2 + fuel + 1)) .pv
        (' ' :: (dumpVal v ++ (dumpB true (PyVal.objCons k2 v2 t2) ++ rest)))
        = some (v, dumpB true (PyVal.objCons k2 v2 t2) ++ rest) := by
      rw [parseF_pv_space]
      exact hV v _ _ hv (sepOk_dumpB_true gv (PyVal.objCons k2 v2 t2) rest ht)
    have hs3 : skipWs (dumpB true (PyVal.objCons k2 v2 t2) ++ rest)
        = ',' :: (' ' :: (spineRender (PyVal.objCons k2 v2 t2) ++ rest)) := by
      rw [dumpB_true_cons]
      rfl
    have hSexp : spineRender (PyVal.objCons k2 v2 t2) ++ rest
        = dquote :: (k2.data ++ dquote ::
            ':' :: (' ' :: (dumpVal v2 ++ (dumpB true t2 ++ rest)))) := by
      simp [spineRender, dumpsStrChars_good k2 hk2, dumpVal]
    have hs4 : skipWs (' ' :: (spineRender (PyVal.objCons k2 v2 t2) ++ rest))
        = dquote :: (k2.data ++ dquote ::
            ':' :: (' ' :: (dumpVal v2 ++ (dumpB true t2 ++ rest)))) := by
      rw [show skipWs (' ' :: (spineRender (PyVal.objCons k2 v2 t2) ++ rest))
          = skipWs (spineRender (PyVal.objCons k2 v2 t2) ++ rest) from rfl, hSexp]
      rfl
    rw [parseF_entry_next ((needs v).1 + ((needs (PyVal.objCons k2 v2 t2)).2 + fuel + 1))
      acc k.data _ _ _ _ _ v hgk hval hs3 hs4]
    rw [show String.mk k.data = k from rfl, objInsert_fresh k v acc hfk]
    rw [← hSexp]
    have hd0 : (((objKeys (PyVal.objCons k2 v2 t2)).all fun x => x != k)
        && distinctKeys (objKeys (PyVal.objCons k2 v2 t2))) = true := hd
    have hd2 : distinctKeys (objKeys (PyVal.objCons k2 v2 t2)) = true := by
      have h := hd0
      rw [Bool.and_eq_true] at h
      exact h.2
    have hfreshk : ∀ x ∈ objKeys (PyVal.objCons k2 v2 t2), ¬ x = k := by
      have h := hd0
      rw [Bool.and_eq_true] at h
      simpa [List.all_eq_true, bne_iff_ne, ne_eq] using h.1
    have hfacc : ∀ x ∈ objKeys (PyVal.objCons k2 v2 t2), ∀ kv ∈ acc, ¬ kv.1 = x := by
      have h := hf0
      rw [Bool.and_eq_true] at h
      simpa [List.all_eq_true, bne_iff_ne, ne_eq] using h.2
    have hf2 : spineFresh (PyVal.objCons k2 v2 t2) (acc ++ [(k, v)]) = true := by
      simp only [spineFresh, List.all_eq_true, List.mem_append, List.mem_singleton,
        bne_iff_ne, ne_eq]
      intro x hx kv hkv
      rcases hkv with hkv | hkv
      · exact hfacc x hx kv hkv
      · subst hkv
        exact fun e => hfreshk x hx e.symm
    have hF : (needs v).1 + ((needs (PyVal.objCons k2 v2 t2)).2 + fuel + 1)
        = (needs (PyVal.objCons k2 v2 t2)).2 + ((needs v).1 + fuel) + 1 := by
      omega
    rw [hF]
    rw [iht k2 v2 (acc ++ [(k, v)]) rest ((needs v).1 + fuel) hk2 hv2 ht2 hd2 hf2]
    simp [spineEntries, List.append_assoc]
  | null => intro k v acc rest fuel hk hv ht hd hf; cases ht
  | bool b => intro k v acc rest fuel hk hv ht hd hf; cases ht
  | int i => intro k v acc rest fuel hk hv ht hd hf; cases ht
  | float q => intro k v acc rest fuel hk hv ht hd hf; cases ht
  | str s => intro k v acc rest fuel hk hv ht hd hf; cases ht
  | arrNil => intro k v acc rest fuel hk hv ht hd hf; cases ht
  | arrCons a b iha ihb => intro k v acc rest fuel hk hv ht hd hf; cases ht

/-- A value that opens with a brace hands over to the object reader. -/
theorem parseF_pv_obj (F : Nat) (l : List Char) :
    parseF (F + 1) .pv (braceO :: l) = parseF F .pobjStart l := rfl

/-- An immediately closed object reads as the empty object. -/
theorem parseF_objStart_empty (F : Nat) (rest : List Char) :
    parseF (F + 1) .pobjStart (braceC :: rest) = some (.objNil, rest) := rfl

/-- An object body that opens with a quote hands over to the entry loop. -/
theorem parseF_objStart_key (F : Nat) (rest : List Char) :
    parseF (F + 1) .pobjStart (dquote :: rest) = parseF F (.pobjEntry []) (dquote :: rest) := rfl

/-- The atom value lemma in budgeted-fuel form. -/
theorem parseF_goodAtom (v : PyVal) (rest : List Char) (fuel : Nat)
    (hv : goodAtom v = true) (hs : SepOk rest) :
    parseF ((needs v).1 + fuel) .pv (dumpVal v ++ rest) = some (v, rest) := by
  have h1 : (needs v).1 = 1 := by
    cases v <;> first | rfl | simp [goodAtom] at hv
  rw [h1, show 1 + fuel = fuel + 1 from by omega]
  exact parseF_atom v rest fuel hv hs

/-- The value reader undoes json.dumps on a non-empty object over any value
class gv that it can already read back. -/
theorem parseF_objCons_val (gv : PyVal → Bool)
    (hV : ∀ (v : PyVal) (rest : List Char) (fuel : Nat), gv v = true → SepOk rest →
      parseF ((needs v).1 + fuel) .pv (dumpVal v ++ rest) = some (v, rest))
    (k : String) (v t : PyVal) (rest : List Char) (fuel : Nat)
    (hs : goodSpine gv (PyVal.objCons k v t) = true)
    (hd : distinctKeys (objKeys (PyVal.objCons k v t)) = true) :
    parseF ((needs (PyVal.objCons k v t)).1 + fuel) .pv
        (dumpVal (PyVal.objCons k v t) ++ rest)
      = some (PyVal.objCons k v t, rest) := by
  have hk : goodStrB k = true := by
    simp only [goodSpine, Bool.and_eq_true] at hs
    exact hs.1.1
  have hv : gv v = true := by
    simp only [goodSpine, Bool.and_eq_true] at hs
    exact hs.1.2
  have ht : goodSpine gv t = true := by
    simp only [goodSpine, Bool.and_eq_true] at hs
    exact hs.2
  have hfuel : (needs (PyVal.objCons k v t)).1 + fuel
      = ((((needs (PyVal.objCons k v t)).2 + fuel + 1)) + 1) + 1 := by
    simp only [needs]
    omega
  rw [show dumpVal (PyVal.objCons k v t) ++ rest
      = braceO :: (spineRender (PyVal.objCons k v t) ++ rest) from rfl]
  rw [hfuel, parseF_pv_obj]
  have hbody : spineRender (PyVal.objCons k v t) ++ rest
      = dquote :: (k.data ++ dquote ::
          ':' :: (' ' :: (dumpVal v ++ (dumpB true t ++ rest)))) := by
    simp [spineRender, dumpsStrChars_good k hk, dumpVal]
  rw [hbody, parseF_objStart_key, ← hbody]
  rw [parse_entry_loop gv hV t k v [] rest fuel hk hv ht hd (by simp [spineFresh])]
  rw [List.nil_append,
    show listToObj ((k, v) :: spineEntries t) = PyVal.objCons k v (listToObj (spineEntries t))
      from rfl,
    listToObj_spineEntries gv t ht]

/-- The value reader undoes json.dumps on every good value: atoms and
one-level objects of atoms. -/
theorem parseF_goodVal : ∀ (v : PyVal) (rest : List Char) (fuel : Nat),
    goodVal v = true → SepOk rest →
    parseF ((needs v).1 + fuel) .pv (dumpVal v ++ rest) = some (v, rest) := by
  intro v rest fuel hv hs
  cases v with
  | objNil =>
    rw [show (needs PyVal.objNil).1 + fuel = (fuel + 1) + 1 from by simp only [needs]; omega]
    rw [show dumpVal PyVal.objNil ++ rest = braceO :: (braceC :: rest) from rfl]
    rw [parseF_pv_obj, parseF_objStart_empty]
  | objCons k w t =>
    have hv' : (goodSpine goodAtom (PyVal.objCons k w t)
        && distinctKeys (objKeys (PyVal.objCons k w t))) = true := hv
    rw [Bool.and_eq_true] at hv'
    exact parseF_objCons_val goodAtom parseF_goodAtom k w t rest fuel hv'.1 hv'.2
  | null => exact parseF_goodAtom _ rest fuel hv hs
  | bool b => exact parseF_goodAtom _ rest fuel hv hs
  | int i => exact parseF_goodAtom _ rest fuel hv hs
  | float q => exact parseF_goodAtom _ rest fuel hv hs
  | str s => exact parseF_goodAtom _ rest fuel hv hs
  | arrNil => exact parseF_goodAtom _ rest fuel hv hs
  | arrCons a b => exact parseF_goodAtom _ rest fuel hv hs

/-- A rendered string is at least its two quotes long. -/
theorem dumpsStrChars_len (s : String) : 2 ≤ (dumpsStrChars s).length := by
  simp only [dumpsStrChars, List.length_cons, List.length_append]
  omega

/-- The parser fuel bounds are covered by the rendered length (with slack for
the empty object). -/
theorem needs_le : ∀ v : PyVal,
    (needs v).1 ≤ (dumpVal v).length + 2 ∧ (needs v).2 ≤ (dumpB true v).length := by
  intro v
  induction v with
  | null => exact ⟨by decide, Nat.zero_le _⟩
  | bool b => exact ⟨by simp only [needs]; omega, Nat.zero_le _⟩
  | int i => exact ⟨by simp only [needs]; omega, Nat.zero_le _⟩
  | float q => exact ⟨by simp only [needs]; omega, Nat.zero_le _⟩
  | str s => exact ⟨by simp only [needs]; omega, Nat.zero_le _⟩
  | arrNil => exact ⟨by simp only [needs]; omega, Nat.zero_le _⟩
  | arrCons a b iha ihb => exact ⟨by simp only [needs]; omega, Nat.zero_le _⟩
  | objNil => exact ⟨by decide, Nat.zero_le _⟩
  | objCons k v t ihv iht =>
    have hk := dumpsStrChars_len k
    constructor
    · simp only [needs, dumpVal, dumpB, List.length_cons, List.length_append] at ihv iht ⊢
      omega
    · simp only [needs, dumpVal, dumpB, List.length_cons, List.length_append] at ihv iht ⊢
      omega

/-- The whole rendering of a good object parses back with json.loads' fuel. -/
theorem parseF_goodObj_total (v : PyVal) (hv : goodObjB v = true) :
    parseF (3 * (dumpVal v).length + 4) .pv (dumpVal v) = some (v, []) := by
  cases v with
  | objNil => decide
  | objCons k w t =>
    have hv' : (goodSpine goodVal (PyVal.objCons k w t)
        && distinctKeys (objKeys (PyVal.objCons k w t))) = true := hv
    rw [Bool.and_eq_true] at hv'
    have hb := (needs_le (PyVal.objCons k w t)).1
    obtain ⟨fuel, hfe⟩ : ∃ fuel, 3 * (dumpVal (PyVal.objCons k w t)).length + 4
        = (needs (PyVal.objCons k w t)).1 + fuel :=
      ⟨3 * (dumpVal (PyVal.objCons k w t)).length + 4 - (needs (PyVal.objCons k w t)).1,
        by omega⟩
    rw [hfe]
    have h0 := parseF_objCons_val goodVal parseF_goodVal k w t [] fuel hv'.1 hv'.2
    rw [List.append_nil] at h0
    exact h0
  | null => cases hv
  | bool b => cases hv
  | int i => cases hv
  | float q => cases hv
  | str s => cases hv
  | arrNil => cases hv
  | arrCons a b => cases hv

/-- json.loads succeeds on a character list its reader consumes entirely. -/
theorem jsonLoads_mk (l : List Char) (v : PyVal)
    (h : parseF (3 * l.length + 4) .pv l = some (v, [])) :
    jsonLoads (String.mk l) = some v := by
  unfold jsonLoads
  rw [show (String.mk l).data = l from rfl, h]
  rfl

/-- Good characters are not braces. -/
theorem nonBrace_of_good (c : Char) (h : goodChar c = true) : nonBrace c = true := by
  simp only [goodChar, Bool.and_eq_true, decide_eq_true_eq, bne_iff_ne, ne_eq] at h
  simp only [nonBrace, Bool.and_eq_true, bne_iff_ne, ne_eq]
  exact ⟨h.1.2, h.2⟩

/-- Digit characters are not braces. -/
theorem nonBrace_of_digit (c : Char) (h : isDigitCh c = true) : nonBrace c = true := by
  simp only [isDigitCh, Bool.and_eq_true, decide_eq_true_eq] at h
  simp only [nonBrace, Bool.and_eq_true, bne_iff_ne, ne_eq]
  constructor
  · intro e
    rw [e] at h
    exact absurd h (by decide)
  · intro e
    rw [e] at h
    exact absurd h (by decide)

/-- The digit peeler only emits digit characters. -/
theorem natDigitsGo_digitsOnly : ∀ (fuel n : Nat) (acc : List Char),
    (∀ c ∈ acc, isDigitCh c = true) → ∀ c ∈ natDigitsGo fuel n acc, isDigitCh c = true := by
  intro fuel
  induction fuel with
  | zero =>
    intro n acc ha
    simpa [natDigitsGo] using ha
  | succ f ih =>
    intro n acc ha
    simp only [natDigitsGo]
    split
    · exact ha
    · refine ih (n / 10) _ ?_
      intro c hc
      rcases List.mem_cons.mp hc with h1 | h1
      · subst h1
        exact isDigitCh_digitChar _
      · exact ha c h1

/-- Decimal renderings of naturals are digit runs. -/
theorem natDigitChars_digitsOnly (n : Nat) : ∀ c ∈ natDigitChars n, isDigitCh c = true := by
  unfold natDigitChars
  split
  · intro c hc
    simp only [List.mem_singleton] at hc
    subst hc
    decide
  · exact natDigitsGo_digitsOnly _ _ [] (by intro c hc; cases hc)

/-- The rendering of a good atom contains no braces. -/
theorem dump_atom_nonBrace (v : PyVal) (h : goodAtom v = true) :
    ∀ c ∈ dumpVal v, nonBrace c = true := by
  cases v with
  | null => decide
  | bool b => cases b <;> decide
  | int i =>
    intro c hc
    have hc' : c ∈ intDecChars i := hc
    unfold intDecChars at hc'
    split at hc'
    · rcases List.mem_cons.mp hc' with h1 | h1
      · subst h1
        decide
      · exact nonBrace_of_digit c (natDigitChars_digitsOnly _ c h1)
    · exact nonBrace_of_digit c (natDigitChars_digitsOnly _ c hc')
  | str s =>
    intro c hc
    have hgood : goodStrB s = true := h
    have hgs : ∀ c ∈ s.data, goodChar c = true := by
      simpa [goodStrB, List.all_eq_true] using hgood
    have hc' : c ∈ dumpsStrChars s := hc
    rw [dumpsStrChars_good s h] at hc'
    rcases List.mem_cons.mp hc' with h1 | h1
    · subst h1
      decide
    · rcases List.mem_append.mp h1 with h2 | h2
      · exact nonBrace_of_good c (hgs c h2)
      · simp only [List.mem_singleton] at h2
        subst h2
        decide
  | float q => cases h
  | arrNil => cases h
  | arrCons a b => cases h
  | objNil => cases h
  | objCons k v t => cases h

/-- The rendering of an atom-valued spine is a brace-free run up to its final
closing brace. -/
theorem spineRender_flat : ∀ w : PyVal, goodSpine goodAtom w = true →
    ∃ b, spineRender w = b ++ [braceC] ∧ ∀ c ∈ b, nonBrace c = true := by
  intro w
  induction w with
  | objNil =>
    intro _
    exact ⟨[], rfl, by intro c hc; cases hc⟩
  | objCons k v t ihv iht =>
    intro hs
    have hs' : ((goodStrB k && goodAtom v) && goodSpine goodAtom t) = true := hs
    rw [Bool.and_eq_true, Bool.and_eq_true] at hs'
    obtain ⟨⟨hk, hv⟩, ht⟩ := hs'
    have hgk : ∀ c ∈ k.data, goodChar c = true := by
      simpa [goodStrB, List.all_eq_true] using hk
    obtain ⟨bt, hbt, hbtn⟩ := iht ht
    have hdt : ∃ bt2, dumpB true t = bt2 ++ [braceC] ∧ ∀ c ∈ bt2, nonBrace c = true := by
      cases t with
      | objNil => exact ⟨[], rfl, by intro c hc; cases hc⟩
      | objCons k2 v2 t2 =>
        refine ⟨',' :: ' ' :: bt, ?_, ?_⟩
        · rw [dumpB_true_cons, hbt]
          rfl
        · intro c hc
          rcases List.mem_cons.mp hc with h1 | h1
          · subst h1; decide
          · rcases List.mem_cons.mp h1 with h2 | h2
            · subst h2; decide
            · exact hbtn c h2
      | null => cases ht
      | bool b => cases ht
      | int i => cases ht
      | float q => cases ht
      | str s => cases ht
      | arrNil => cases ht
      | arrCons a b => cases ht
    obtain ⟨bt2, hbt2, hbt2n⟩ := hdt
    refine ⟨dumpsStrChars k ++ ':' :: ' ' :: (dumpVal v ++ bt2), ?_, ?_⟩
    · rw [show spineRender (PyVal.objCons k v t)
          = dumpsStrChars k ++ ':' :: ' ' :: dumpB false v ++ dumpB true t from rfl, hbt2]
      simp [dumpVal, List.append_assoc]
    · intro c hc
      rcases List.mem_append.mp hc with h1 | h1
      · rw [dumpsStrChars_good k hk] at h1
        rcases List.mem_cons.mp h1 with h2 | h2
        · subst h2; decide
        · rcases List.mem_append.mp h2 with h3 | h3
          · exact nonBrace_of_good c (hgk c h3)
          · simp only [List.mem_singleton] at h3
            subst h3
            decide
      · rcases List.mem_cons.mp h1 with h2 | h2
        · subst h2; decide
        · rcases List.mem_cons.mp h2 with h3 | h3
          · subst h3; decide
          · rcases List.mem_append.mp h3 with h4 | h4
            · exact dump_atom_nonBrace v hv c h4
            · exact hbt2n c h4
  | null => intro hs; cases hs
  | bool b => intro hs; cases hs
  | int i => intro hs; cases hs
  | float q => intro hs; cases hs
  | str s => intro hs; cases hs
  | arrNil => intro hs; cases hs
  | arrCons a b iha ihb => intro hs; cases hs

/-- Well-bracketed body of a one-level brace-regex match: runs of non-brace
characters and single inner brace pairs, ending at the match's closing
brace. -/
inductive BodyOk : List Char → Prop where
  | base : ∀ a : List Char, (∀ c ∈ a, nonBrace c = true) → BodyOk (a ++ [braceC])
  | pair : ∀ (a b r : List Char), (∀ c ∈ a, nonBrace c = true) →
      (∀ c ∈ b, nonBrace c = true) → BodyOk r →
      BodyOk (a ++ braceO :: (b ++ braceC :: r))

/-- A brace-free prefix folds into the first run of a well-bracketed body. -/
theorem bodyOk_prepend (p l : List Char) (hp : ∀ c ∈ p, nonBrace c = true)
    (h : BodyOk l) : BodyOk (p ++ l) := by
  cases h with
  | base a ha =>
    rw [← List.append_assoc]
    refine BodyOk.base (p ++ a) ?_
    intro c hc
    rcases List.mem_append.mp hc with h1 | h1
    · exact hp c h1
    · exact ha c h1
  | pair a b r ha hb hr =>
    rw [← List.append_assoc]
    refine BodyOk.pair (p ++ a) b r ?_ hb hr
    intro c hc
    rcases List.mem_append.mp hc with h1 | h1
    · exact hp c h1
    · exact ha c h1

/-- The brace-regex tail matcher accepts exactly a well-bracketed body. -/
theorem braceTail_bodyOk : ∀ (l : List Char), BodyOk l →
    ∀ fuel : Nat, l.length + 1 ≤ fuel → braceTail fuel l = some (l, []) := by
  intro l hl
  induction hl with
  | base a ha =>
    intro fuel hf
    obtain ⟨f, rfl⟩ : ∃ f, fuel = f + 1 := ⟨fuel - 1, by omega⟩
    obtain ⟨h1, h2⟩ := takeWhile_app_eq nonBrace a [braceC] ha (by decide)
    simp only [braceTail, h1, h2, eq_self_iff_true, if_true]
  | pair a b r ha hb hr ih =>
    intro fuel hf
    obtain ⟨f, rfl⟩ : ∃ f, fuel = f + 1 := ⟨fuel - 1, by omega⟩
    obtain ⟨h1, h2⟩ := takeWhile_app_eq nonBrace a (braceO :: (b ++ braceC :: r)) ha
      (show nonBrace braceO = false from by decide)
    obtain ⟨h3, h4⟩ := takeWhile_app_eq nonBrace b (braceC :: r) hb
      (show nonBrace braceC = false from by decide)
    have hrec := ih f (by simp only [List.length_append, List.length_cons] at hf; omega)
    have hne1 : ¬ (braceO = braceC) := by decide
    simp only [braceTail, h1, h2, h3, h4, hrec, hne1, if_false, eq_self_iff_true, if_true]
    simp [List.append_assoc]

/-- The brace regex matches the whole rendering at its opening brace. -/
theorem matchBraceAt_body (body : List Char) (h : BodyOk body) :
    matchBraceAt (braceO :: body) = some (braceO :: body, []) := by
  unfold matchBraceAt
  simp only [braceTail_bodyOk body h (body.length + 1) (by omega), eq_self_iff_true, if_true]

/-- findall's worker on empty input. -/
theorem findAllGo_nil (step : List Char → Option (List Char × List Char)) :
    ∀ f : Nat, findAllGo step f [] = [] := by
  intro f
  cases f with
  | zero => rfl
  | succ f => rfl

/-- findall over a single whole-input brace match. -/
theorem findAllM_obj (body : List Char) (h : BodyOk body) :
    findAllM matchBraceAt (braceO :: body) = [braceO :: body] := by
  unfold findAllM
  simp only [List.length_cons, findAllGo, matchBraceAt_body body h, findAllGo_nil]

/-- The rendering of a good top-level spine (atom or one-level-object values)
is a well-bracketed one-level body. -/
theorem spineRender_bodyOk : ∀ t : PyVal, goodSpine goodVal t = true →
    BodyOk (spineRender t) := by
  intro t
  induction t with
  | objNil =>
    intro _
    exact BodyOk.base [] (by intro c hc; cases hc)
  | objCons k v t2 ihv iht =>
    intro hs
    have hs' : ((goodStrB k && goodVal v) && goodSpine goodVal t2) = true := hs
    rw [Bool.and_eq_true, Bool.and_eq_true] at hs'
    obtain ⟨⟨hk, hv⟩, ht⟩ := hs'
    have hgk : ∀ c ∈ k.data, goodChar c = true := by
      simpa [goodStrB, List.all_eq_true] using hk
    have hpk : ∀ c ∈ dumpsStrChars k, nonBrace c = true := by
      intro c hc
      rw [dumpsStrChars_good k hk] at hc
      rcases List.mem_cons.mp hc with h1 | h1
      · subst h1; decide
      · rcases List.mem_append.mp h1 with h2 | h2
        · exact nonBrace_of_good c (hgk c h2)
        · simp only [List.mem_singleton] at h2
          subst h2
          decide
    have htail : BodyOk (dumpB true t2) := by
      cases t2 with
      | objNil => exact BodyOk.base [] (by intro c hc; cases hc)
      | objCons k3 v3 t3 =>
        have h2 := iht ht
        have h3 : BodyOk ([',', ' '] ++ spineRender (PyVal.objCons k3 v3 t3)) :=
          bodyOk_prepend [',', ' '] _ (by decide) h2
        rw [dumpB_true_cons]
        exact h3
      | null => cases ht
      | bool b => cases ht
      | int i => cases ht
      | float q => cases ht
      | str s => cases ht
      | arrNil => cases ht
      | arrCons a b => cases ht
    have hshape : spineRender (PyVal.objCons k v t2)
        = dumpsStrChars k ++ ':' :: ' ' :: dumpB false v ++ dumpB true t2 := rfl
    cases hva : goodAtom v with
    | true =>
      have hpre : ∀ c ∈ dumpsStrChars k ++ ':' :: ' ' :: dumpVal v, nonBrace c = true := by
        intro c hc
        rcases List.mem_append.mp hc with h1 | h1
        · exact hpk c h1
        · rcases List.mem_cons.mp h1 with h2 | h2
          · subst h2; decide
          · rcases List.mem_cons.mp h2 with h3 | h3
            · subst h3; decide
            · exact dump_atom_nonBrace v hva c h3
      have hb := bodyOk_prepend (dumpsStrChars k ++ ':' :: ' ' :: dumpVal v)
        (dumpB true t2) hpre htail
      rw [hshape]
      simpa [dumpVal, List.append_assoc, List.cons_append] using hb
    | false =>
      have hpre2 : ∀ c ∈ dumpsStrChars k ++ [':', ' '], nonBrace c = true := by
        intro c hc
        rcases List.mem_append.mp hc with h1 | h1
        · exact hpk c h1
        · rcases List.mem_cons.mp h1 with h2 | h2
          · subst h2; decide
          · simp only [List.mem_singleton] at h2
            subst h2
            decide
      cases v with
      | objNil =>
        have hb := BodyOk.pair (dumpsStrChars k ++ [':', ' ']) [] (dumpB true t2)
          hpre2 (by intro c hc; cases hc) htail
        rw [hshape]
        simpa [dumpB, List.append_assoc, List.cons_append, List.nil_append] using hb
      | objCons k3 v3 t3 =>
        have hvv : (goodSpine goodAtom (PyVal.objCons k3 v3 t3)
            && distinctKeys (objKeys (PyVal.objCons k3 v3 t3))) = true := hv
        rw [Bool.and_eq_true] at hvv
        obtain ⟨b, hbeq, hbn⟩ := spineRender_flat (PyVal.objCons k3 v3 t3) hvv.1
        have hb := BodyOk.pair (dumpsStrChars k ++ [':', ' ']) b (dumpB true t2)
          hpre2 hbn htail
        rw [hshape,
          show dumpB false (PyVal.objCons k3 v3 t3)
            = braceO :: spineRender (PyVal.objCons k3 v3 t3) from rfl,
          hbeq]
        simpa [List.append_assoc, List.cons_append, List.singleton_append] using hb
      | null =>
        rw [show goodAtom PyVal.null = true from rfl] at hva
        cases hva
      | bool bb =>
        rw [show goodAtom (PyVal.bool bb) = true from rfl] at hva
        cases hva
      | int i =>
        rw [show goodAtom (PyVal.int i) = true from rfl] at hva
        cases hva
      | float q => cases hv
      | str s =>
        rw [show goodAtom (PyVal.str s) = true from hv] at hva
        cases hva
      | arrNil => cases hv
      | arrCons a bb => cases hv
  | null => intro hs; cases hs
  | bool b => intro hs; cases hs
  | int i => intro hs; cases hs
  | float q => intro hs; cases hs
  | str s => intro hs; cases hs
  | arrNil => intro hs; cases hs
  | arrCons a b iha ihb => intro hs; cases hs

/-- findall on the rendering of a good non-empty object returns exactly the
whole rendering. -/
theorem findAllM_goodObj (k : String) (v t : PyVal)
    (h : goodObjB (PyVal.objCons k v t) = true) :
    findAllM matchBraceAt (dumpVal (PyVal.objCons k v t))
      = [dumpVal (PyVal.objCons k v t)] := by
  have h' : (goodSpine goodVal (PyVal.objCons k v t)
      && distinctKeys (objKeys (PyVal.objCons k v t))) = true := h
  rw [Bool.and_eq_true] at h'
  have hb : BodyOk (spineRender (PyVal.objCons k v t)) := spineRender_bodyOk _ h'.1
  rw [show dumpVal (PyVal.objCons k v t)
      = braceO :: spineRender (PyVal.objCons k v t) from rfl]
  exact findAllM_obj _ hb

/-- A nested sample in the round-trip class: atoms and a one-level inner
object, all keys distinct, all strings printable and brace-free. -/
def c7Sample : PyVal :=
  PyVal.objCons "op" (PyVal.str "sum")
    (PyVal.objCons "args"
      (PyVal.objCons "x" (PyVal.int 2) (PyVal.objCons "y" (PyVal.int 3) PyVal.objNil))
      (PyVal.objCons "ok" (PyVal.bool true) PyVal.objNil))

/-- C7 counterexample: the object with the single entry "a" mapped to the
string value rendered as a closing brace followed by an opening brace.  Its
serialization has textual brace nesting at most one level (the brace profile
balances and never exceeds depth one inside the outer pair), yet the brace
regex pairs the braces wrongly across the string value and the object-scan
path fails to recover any value, let alone the original object. -/
theorem C7_counterexample :
    jsonDumps (PyVal.objCons "a" (PyVal.str "\x7d\x7b") PyVal.objNil)
        = "\x7b\"a\": \"\x7d\x7b\"\x7d" ∧
    textDepthLe1 "\x7b\"a\": \"\x7d\x7b\"\x7d" = true ∧
    scanObjectPath "\x7b\"a\": \"\x7d\x7b\"\x7d" = none :=
  ⟨by decide, rfl, rfl⟩

/-- C7 (amended): for every object in the modelled round-trip class — values
are atoms (null, booleans, integers, strings) or one-level objects of such
atoms, every string printable ASCII without quotes, backslashes or braces,
keys distinct at each level — serializing with json.dumps and running the
answer extraction's object-scan path (last brace-regex match, parsed with
json.loads) yields the original object, and the full extraction cascade
returns it as well. -/
theorem C7_object_roundtrip (v : PyVal) (h : goodObjB v = true) :
    scanObjectPath (jsonDumps v) = some v ∧ extract_answer (jsonDumps v) = v := by
  cases v with
  | objCons k w t =>
    have hfa := findAllM_goodObj k w t h
    have hld : jsonLoads (String.mk (dumpVal (PyVal.objCons k w t)))
        = some (PyVal.objCons k w t) :=
      jsonLoads_mk _ _ (parseF_goodObj_total _ h)
    constructor
    · unfold scanObjectPath jsonDumps
      rw [show (String.mk (dumpVal (PyVal.objCons k w t))).data
          = dumpVal (PyVal.objCons k w t) from rfl, hfa]
      rw [show [dumpVal (PyVal.objCons k w t)].getLast?
          = some (dumpVal (PyVal.objCons k w t)) from rfl]
      simpa using hld
    · unfold extract_answer jsonDumps
      rw [show (String.mk (dumpVal (PyVal.objCons k w t))).data
          = dumpVal (PyVal.objCons k w t) from rfl, hfa]
      rw [show [dumpVal (PyVal.objCons k w t)].getLast?
          = some (dumpVal (PyVal.objCons k w t)) from rfl]
      simp only [hld]
      rfl
  | objNil => exact ⟨by decide, by decide⟩
  | null => cases h
  | bool b => cases h
  | int i => cases h
  | float q => cases h
  | str s => cases h
  | arrNil => cases h
  | arrCons a b => cases h

/-- Witness for C7: the nested sample is in the class, and both the isolated
object-scan path and the full extraction return it from its serialization. -/
theorem C7_witness :
    goodObjB c7Sample = true ∧
    scanObjectPath (jsonDumps c7Sample) = some c7Sample ∧
    extract_answer (jsonDumps c7Sample) = c7Sample :=
  ⟨by decide, (C7_object_roundtrip c7Sample (by decide)).1,
    (C7_object_roundtrip c7Sample (by decide)).2⟩
